import Mathlib

/-!
Verification development for the `sweepers` Minesweeper engine.

The definitions below are a shallow embedding of the Rust sources:
`src/core/location.rs` (saturating `Bounded` coordinates, `Location`
geometry), `src/core/mine_field.rs` (`Area`, `GroundKind`, fog `State`,
`GameState`, `Minefield` with command execution and BFS flood-fill
reveal), `src/generator.rs` (`ImprovedGenerator` with its monotone
safe-location skipper), and `src/solver.rs` (the fact repository, the six
rules and the saturation loop).

Modelling conventions:
- `usize` is modelled as `ℕ`; `checked_sub`/`checked_add` become the
  corresponding partial operations on `ℕ`.  The one place where the code
  performs an *unchecked* `usize` subtraction that can underflow
  (`Solver::solve_dump`) is modelled as a fallible operation returning
  `Option`, `none` standing for the arithmetic-overflow panic of a
  checked build.
- Rust's `HashSet<Fact>` (whose `Eq`/`Hash` only look at
  `(kind, count, proximity)`) is modelled as a list of facts that is
  never extended with a fact whose key is already present; the key set
  and the key-to-iteration assignment produced this way are exactly the
  ones of the Rust code, independent of hash iteration order.
- The boxed `MinefieldGenerator` of a `Minefield` is modelled by passing
  the candidate generated ground explicitly to `executeO`; the
  randomness of `ImprovedGenerator` is modelled by quantifying over the
  distinct-index sample drawn by `rand::seq::index::sample`.
- Wall-clock payloads of `GameState` (`start_time`, `game_duration`) are
  dropped: no claim mentions durations, and the tag-change computation
  `*self != old` is insensitive to them (unchanged states are cloned).
- `GameState::update` panics when `won && lost`; it therefore returns
  `Option`, `none` standing for the panic.
-/

namespace Sweepers

/-- `Bounded` from `src/core/location.rs`: a saturating non-negative
coordinate that is either a valid `usize` or the poisoned `Invalid`. -/
inductive Bounded where
  | Invalid : Bounded
  | Valid : ℕ → Bounded
deriving DecidableEq, Repr

namespace Bounded

/-- `Bounded::op` specialised to `usize::checked_sub`. -/
def sub : Bounded → Bounded → Bounded
  | Valid a, Valid b => if b ≤ a then Valid (a - b) else Invalid
  | _, _ => Invalid

/-- `Bounded::op` specialised to `usize::checked_add` (no overflow on `ℕ`). -/
def add : Bounded → Bounded → Bounded
  | Valid a, Valid b => Valid (a + b)
  | _, _ => Invalid

/-- `Bounded::op` specialised to `usize::checked_mul` (no overflow on `ℕ`). -/
def mul : Bounded → Bounded → Bounded
  | Valid a, Valid b => Valid (a * b)
  | _, _ => Invalid

/-- `impl From<Bounded> for Option<usize>`. -/
def toOption : Bounded → Option ℕ
  | Invalid => none
  | Valid s => some s

/-- `Bounded::is_invalid`. -/
def isInvalid : Bounded → Bool
  | Invalid => true
  | Valid _ => false

end Bounded

/-- `Direction` from `src/core/location.rs`. -/
inductive Direction where
  | Left | Right | Up | Down
deriving DecidableEq, Repr

/-- `Location`: a pair of `Bounded` coordinates. -/
structure Location where
  x : Bounded
  y : Bounded
deriving DecidableEq, Repr

namespace Location

/-- `Location::new` for two valid coordinates. -/
def mkN (x y : ℕ) : Location := ⟨Bounded.Valid x, Bounded.Valid y⟩

/-- `Location::to_index`: flat row-major index, defined only when `x` is
valid and below `width` (note: `y` is not compared with the height). -/
def toIndex (l : Location) (width : ℕ) : Option ℕ :=
  match l.x with
  | Bounded.Valid x => if x < width then ((l.y.mul (Bounded.Valid width)).add l.x).toOption else none
  | Bounded.Invalid => none

/-- `Location::from_index`. -/
def fromIndex (index width : ℕ) : Location :=
  ⟨Bounded.Valid (index % width), Bounded.Valid (index / width)⟩

/-- `Location::generate_all`, materialised as a list. -/
def generateAll (width height : ℕ) : List Location :=
  (List.range (width * height)).map (fun i => fromIndex i width)

/-- `Location::mv`. -/
def mv (l : Location) (d : Direction) : Location :=
  match d with
  | Direction.Left => ⟨l.x.sub (Bounded.Valid 1), l.y⟩
  | Direction.Right => ⟨l.x.add (Bounded.Valid 1), l.y⟩
  | Direction.Up => ⟨l.x, l.y.sub (Bounded.Valid 1)⟩
  | Direction.Down => ⟨l.x, l.y.add (Bounded.Valid 1)⟩

/-- `Location::neighbours`: the eight Moore neighbours in source order
(NW, N, NE, W, E, SW, S, SE); edge neighbours carry `Invalid` coordinates. -/
def neighbours (l : Location) : List Location :=
  [ (l.mv Direction.Up).mv Direction.Left,
    l.mv Direction.Up,
    (l.mv Direction.Up).mv Direction.Right,
    l.mv Direction.Left,
    l.mv Direction.Right,
    (l.mv Direction.Down).mv Direction.Left,
    l.mv Direction.Down,
    (l.mv Direction.Down).mv Direction.Right ]

end Location

/-- `Area<T>` from `src/core/mine_field.rs`: a dense row-major grid. -/
structure Area (T : Type) where
  area : List T
  width : ℕ
  height : ℕ
deriving DecidableEq, Repr

namespace Area

/-- `Area::new`: `width * height` default elements. -/
def new (T : Type) [Inhabited T] (width height : ℕ) : Area T :=
  ⟨List.replicate (width * height) default, width, height⟩

/-- `impl Default for Area<T>`: the empty 0×0 grid. -/
def empty (T : Type) : Area T := ⟨[], 0, 0⟩

/-- `Area::get`. -/
def get {T : Type} (a : Area T) (l : Location) : Option T :=
  match l.toIndex a.width with
  | none => none
  | some i => a.area.get? i

/-- The write performed through `Area::index_mut`, whose index is
`l.to_index(width).unwrap_or(0)`.  (`List.set` leaves the list unchanged
when the index is out of range; every write reached in this development
is in range.) -/
def set {T : Type} (a : Area T) (l : Location) (v : T) : Area T :=
  ⟨a.area.set ((l.toIndex a.width).getD 0) v, a.width, a.height⟩

end Area

/-- `GroundKind`. -/
inductive GroundKind where
  | Mine : GroundKind
  | Dirt : GroundKind
deriving DecidableEq, Repr

instance : Inhabited GroundKind := ⟨GroundKind.Dirt⟩

/-- `GroundKind::is_mine`. -/
def GroundKind.isMine : GroundKind → Bool
  | GroundKind.Mine => true
  | GroundKind.Dirt => false

/-- `GroundKind::is_dirt`. -/
def GroundKind.isDirt : GroundKind → Bool
  | GroundKind.Mine => false
  | GroundKind.Dirt => true

/-- The fog `State` of a cell. -/
inductive State where
  | Hidden : State
  | Marked : State
  | Revealed : ℕ → State
  | Exploded : State
deriving DecidableEq, Repr

instance : Inhabited State := ⟨State.Hidden⟩

/-- `State::is_exploded`. -/
def State.isExploded : State → Bool
  | State.Exploded => true
  | _ => false

/-- `State::is_revealed`. -/
def State.isRevealed : State → Bool
  | State.Revealed _ => true
  | _ => false

/-- `State::is_hidden`. -/
def State.isHidden : State → Bool
  | State.Hidden => true
  | _ => false

/-- `State::is_marked`. -/
def State.isMarked : State → Bool
  | State.Marked => true
  | _ => false

/-- `State::as_revealed`. -/
def State.asRevealed : State → Option ℕ
  | State.Revealed n => some n
  | _ => none

/-- `GameState`, with the wall-clock payloads of `InProgress`, `Loss` and
`Win` dropped (no claim mentions them). -/
inductive GameState where
  | Initial : ℕ → GameState
  | InProgress : GameState
  | Loss : GameState
  | Win : GameState
deriving DecidableEq, Repr

/-- `GameState::new`. -/
def GameState.new (mineCount : ℕ) : GameState := GameState.Initial mineCount

def GameState.isInitial : GameState → Bool
  | GameState.Initial _ => true
  | _ => false

/-- `GameState::is_win`. -/
def GameState.isWin : GameState → Bool
  | GameState.Win => true
  | _ => false

/-- `GameState::is_loss`. -/
def GameState.isLoss : GameState → Bool
  | GameState.Loss => true
  | _ => false

/-- The `lost` local of `GameState::update`: some cell is Exploded. -/
def lostPred (fog : Area State) : Bool := fog.area.any State.isExploded

/-- The `won` local of `GameState::update`: every cell is revealed XOR
(mine ∧ marked), over the zip of the two cell vectors. -/
def wonPred (fog : Area State) (ground : Area GroundKind) : Bool :=
  (fog.area.zip ground.area).all
    (fun p => xor p.1.isRevealed (p.2.isMine && p.1 == State.Marked))

/-- The successor-state computation (`new`) of `GameState::update`; the
`(won, lost) = (true, true)` arm of the `InProgress` match panics in the
source, modelled as `none`. -/
def GameState.updateNew (st : GameState) (fog : Area State) (ground : Area GroundKind) :
    Option GameState :=
  match st with
  | GameState.Initial _ =>
      if fog.area.all State.isHidden then some st
      else if lostPred fog then some GameState.Loss
      else some GameState.InProgress
  | GameState.InProgress =>
      match wonPred fog ground, lostPred fog with
      | false, true => some GameState.Loss
      | true, false => some GameState.Win
      | false, false => some st
      | true, true => none
  | _ => some st

/-- `GameState::update`: install the successor state and report the
`*self != old` change flag. -/
def GameState.update (st : GameState) (fog : Area State) (ground : Area GroundKind) :
    Option (GameState × Bool) :=
  (st.updateNew fog ground).map (fun n => (n, decide (n ≠ st)))

/-- `Action` from `src/core/command.rs`. -/
inductive Action where
  | Reveal | Mark | Unmark | ToggleMark
deriving DecidableEq, Repr

/-- `PendingCommand`: the `(location, action)` pair handed to `execute`. -/
structure PendingCommand where
  location : Location
  action : Action
deriving DecidableEq, Repr

/-- `ExecutionResult`; the `ExecutedCommand` payload is reduced to its
`updated_locations` list. -/
inductive ExecutionResult where
  | Failed : ExecutionResult
  | SuccessAndStateChange : List Location → ExecutionResult
  | SuccessNoStateChange : List Location → ExecutionResult
deriving DecidableEq, Repr

/-- `Parameters`. -/
structure Parameters where
  width : ℕ
  height : ℕ
  mineCount : ℕ
deriving DecidableEq, Repr

/-- `Minefield`: the two grids plus the lifecycle state.  The boxed
generator capability is not stored; instead the ground an invocation of
the generator would produce is passed to `executeO` explicitly. -/
structure Minefield where
  ground : Area GroundKind
  fog : Area State
  state : GameState
deriving DecidableEq, Repr

namespace Minefield

/-- `Minefield::new`. -/
def new (p : Parameters) : Minefield :=
  ⟨Area.empty GroundKind, Area.new State p.width p.height, GameState.new p.mineCount⟩

/-- `Minefield::width` (read from the fog). -/
def width (mf : Minefield) : ℕ := mf.fog.width

/-- `Minefield::height` (read from the fog). -/
def height (mf : Minefield) : ℕ := mf.fog.height

/-- `Minefield::mine_count`: the number of `Mine` cells of the ground. -/
def mineCount (mf : Minefield) : ℕ := mf.ground.area.countP GroundKind.isMine

/-- `Minefield::mark_count`. -/
def markCount (mf : Minefield) : ℕ := mf.fog.area.countP State.isMarked

/-- `Minefield::reset`. -/
def reset (mf : Minefield) : Minefield :=
  ⟨Area.empty GroundKind, Area.new State mf.width mf.height, GameState.new mf.mineCount⟩

/-- `Minefield::mines_in_proximity`: mines among the 8 Moore neighbours
that resolve to a cell of the ground. -/
def minesInProximity (ground : Area GroundKind) (location : Location) : ℕ :=
  ((location.neighbours.filterMap (fun l => ground.get l)).countP GroundKind.isMine)

/-- One BFS worklist step of `Minefield::reveal_location`, with explicit
fuel.  Returns the fog, the `affected` list and the remaining queue. -/
def revealAux (ground : Area GroundKind) :
    ℕ → Area State → List Location → List Location →
    (Area State × List Location × List Location)
  | 0, fog, queue, acc => (fog, acc, queue)
  | fuel + 1, fog, queue, acc =>
    match queue with
    | [] => (fog, acc, [])
    | current :: rest =>
      match fog.get current with
      | some State.Hidden =>
        match ground.get current with
        | some GroundKind.Dirt =>
            let n := minesInProximity ground current
            revealAux ground fuel (fog.set current (State.Revealed n))
              (if n = 0 then rest ++ current.neighbours else rest) (acc ++ [current])
        | some GroundKind.Mine =>
            revealAux ground fuel (fog.set current State.Exploded) rest (acc ++ [current])
        | none => revealAux ground fuel fog rest acc
      | _ => revealAux ground fuel fog rest acc

/-- `Minefield::reveal_location`.  The fuel `1 + 9 * |fog|` dominates the
measure `|queue| + 9 * #Hidden`, which strictly decreases at every pop,
so the queue of the Rust BFS is provably exhausted within it. -/
def revealLocation (fog : Area State) (ground : Area GroundKind) (location : Location) :
    Area State × List Location :=
  let r := revealAux ground (9 * fog.area.length + 1) fog [location] []
  (r.1, r.2.1)

/-- `Minefield::execute`, parameterised by the ground `gen` that the
stored generator returns if the state is still `Initial`.  `none` stands
for the (unreachable) panic of `GameState::update`. -/
def executeO (mf : Minefield) (gen : Area GroundKind) (cmd : PendingCommand) :
    Option (ExecutionResult × Minefield) :=
  let ground : Area GroundKind :=
    match mf.state with
    | GameState.Initial _ => gen
    | _ => mf.ground
  let finish : Area State → List Location → Option (ExecutionResult × Minefield) :=
    fun fog2 updated =>
      match mf.state.update fog2 ground with
      | none => none
      | some p =>
          some (if p.2 then ExecutionResult.SuccessAndStateChange updated
                else ExecutionResult.SuccessNoStateChange updated,
                ⟨ground, fog2, p.1⟩)
  match cmd.action, mf.fog.get cmd.location with
  | Action.Reveal, some State.Hidden =>
      let r := revealLocation mf.fog ground cmd.location
      finish r.1 r.2
  | Action.Mark, some State.Hidden => finish (mf.fog.set cmd.location State.Marked) [cmd.location]
  | Action.ToggleMark, some State.Hidden => finish (mf.fog.set cmd.location State.Marked) [cmd.location]
  | Action.Unmark, some State.Marked => finish (mf.fog.set cmd.location State.Hidden) [cmd.location]
  | Action.ToggleMark, some State.Marked => finish (mf.fog.set cmd.location State.Hidden) [cmd.location]
  | _, _ => some (ExecutionResult.Failed, ⟨ground, mf.fog, mf.state⟩)

end Minefield

/-! ## Generator (`src/generator.rs`, `ImprovedGenerator`) -/

namespace ImprovedGenerator

/-- The `BTreeSet` of forbidden indices built by
`build_safe_location_skipper`: the indices of the safe location and of
its neighbours that pass `to_index`. -/
def safeIndices (notAMine : Location) (width : ℕ) : Finset ℕ :=
  ((notAMine :: notAMine.neighbours).filterMap (fun l => l.toIndex width)).toFinset

/-- The `adjustment` computed inside the skipper loop: the position of
the first safe index exceeding `a` within the sorted set, i.e. the number
of safe indices `≤ a`. -/
def adjCount (S : Finset ℕ) (a : ℕ) : ℕ := (S.filter (fun p => p ≤ a)).card

/-- The skipper's fixpoint loop, with explicit fuel (the loop of the
source strictly increases `adjusted_index` until `index + adjustment`
stabilises; fuel `2 * |S| + 2` is proved sufficient below). -/
def skipAux (S : Finset ℕ) (i : ℕ) : ℕ → ℕ → ℕ
  | 0, a => a
  | fuel + 1, a =>
      let t := adjCount S a
      if i + t = a then a else skipAux S i fuel (i + t)

/-- The closure returned by `build_safe_location_skipper`, applied to a
sampled index. -/
def skip (S : Finset ℕ) (i : ℕ) : ℕ := skipAux S i (2 * S.card + 2) i

/-- `ImprovedGenerator::generate` for a concrete sample of distinct
indices (the result of `rand::seq::index::sample`, whose indices all lie
below `width*height - 9`).  The `sort_unstable` of the source is realised
by enumerating `0 .. width*height - 9` in order and keeping the sampled
indices. -/
def buildGround (p : Parameters) (notAMine : Location) (sample : Finset ℕ) :
    Area GroundKind :=
  let S := safeIndices notAMine p.width
  ((List.range (p.width * p.height - 9)).filter (fun i => i ∈ sample)).foldl
    (fun a index => a.set (Location.fromIndex (skip S index) p.width) GroundKind.Mine)
    (Area.new GroundKind p.width p.height)

/-- The relational description of `ImprovedGenerator::generate`: some
draw of `mine_count` distinct indices from `0 .. width*height - 9`
produced the ground.  `9 ≤ width*height` reflects that the source would
otherwise panic on the `usize` subtraction, and `sample.card = mineCount`
with `sample ⊆ range (w*h - 9)` reflects that `rand::seq::index::sample`
panics when asked for more distinct indices than exist. -/
def Generates (p : Parameters) (notAMine : Location) (g : Area GroundKind) : Prop :=
  9 ≤ p.width * p.height ∧
  ∃ sample : Finset ℕ, sample ⊆ Finset.range (p.width * p.height - 9) ∧
    sample.card = p.mineCount ∧ g = buildGround p notAMine sample

end ImprovedGenerator

/-! ## Solver (`src/solver.rs`) -/

/-- `Constraint`. -/
inductive Constraint where
  | Min | Exact | Max
deriving DecidableEq, Repr

/-- `Fact`, with the `debug` provenance payload dropped.  Equality and
hashing of the Rust `Fact` only consult `(kind, count, proximity)`; this
key is `Fact.key` below and list insertion is always key-deduplicated. -/
structure Fact where
  kind : Constraint
  count : ℕ
  proximity : Finset Location
  iteration : ℕ
deriving DecidableEq

namespace Fact

/-- The identity used by the `HashSet<Fact>` of the source. -/
def key (f : Fact) : Constraint × ℕ × Finset Location := (f.kind, f.count, f.proximity)

/-- `Fact::cardinality`. -/
def cardinality (f : Fact) : ℕ := f.proximity.card

/-- `Fact::is_min`. -/
def isMin (f : Fact) : Bool := f.kind = Constraint.Min

/-- `Fact::is_max`. -/
def isMax (f : Fact) : Bool := f.kind = Constraint.Max

/-- `Fact::is_exact`. -/
def isExact (f : Fact) : Bool := f.kind = Constraint.Exact

/-- `Fact::seeded`. -/
def seeded (count : ℕ) (proximity : Finset Location) : Fact :=
  ⟨Constraint.Exact, count, proximity, 0⟩

/-- `Fact::derive_kind`. -/
def deriveKind (f : Fact) (kind : Constraint) (iteration : ℕ) : Fact :=
  ⟨kind, f.count, f.proximity, iteration⟩

end Fact

/-- The fact repository (`struct Solver` minus the rule list and the
borrowed minefield, which are passed explicitly where needed). -/
structure Solver where
  facts : List Fact
  iteration : ℕ
deriving DecidableEq

namespace Solver

/-- `HashSet::extend` on facts: append each fact whose key is new. -/
def addAll (facts : List Fact) (new : List Fact) : List Fact :=
  new.foldl (fun acc f => if acc.any (fun g => g.key = f.key) then acc else acc ++ [f]) facts

/-- `Solver::iter_previous_iteration`. -/
def prevIteration (s : Solver) : List Fact :=
  s.facts.filter (fun f => f.iteration = s.iteration - 1)

/-- `Solver::iter_new_with_old`: one fact from the previous iteration
paired with every fact of the repository. -/
def pairs (s : Solver) : List (Fact × Fact) :=
  (s.prevIteration).flatMap (fun l => s.facts.map (fun r => (l, r)))

/-- The kind dispatch shared by the two binary combinators. -/
def asMinMax (l r : Fact) : Option (Fact × Fact) :=
  match l.kind, r.kind with
  | Constraint.Min, Constraint.Max => some (l, r)
  | Constraint.Max, Constraint.Min => some (r, l)
  | _, _ => none

/-- Rule `MinAllToExact`. -/
def minAllToExact (s : Solver) : List Fact :=
  ((s.prevIteration).filter (fun f => f.isMin && f.cardinality = f.count)).map
    (fun f => f.deriveKind Constraint.Exact s.iteration)

/-- Rule `MaxZeroToExact`. -/
def maxZeroToExact (s : Solver) : List Fact :=
  ((s.prevIteration).filter (fun f => f.isMax && f.count = 0)).map
    (fun f => f.deriveKind Constraint.Exact s.iteration)

/-- Rule `ExactToMin`. -/
def exactToMin (s : Solver) : List Fact :=
  ((s.prevIteration).filter (fun f => f.isExact)).map
    (fun f => f.deriveKind Constraint.Min s.iteration)

/-- Rule `ExactToMax`. -/
def exactToMax (s : Solver) : List Fact :=
  ((s.prevIteration).filter (fun f => f.isExact)).map
    (fun f => f.deriveKind Constraint.Max s.iteration)

/-- Rule `MinWithinMaxCombinator`. -/
def minWithinMax (s : Solver) : List Fact :=
  (s.pairs).filterMap (fun p =>
    (asMinMax p.1 p.2).bind (fun q =>
      if q.2.count ≥ q.1.count ∧ q.1.proximity.card < q.2.proximity.card ∧
          q.1.proximity ⊆ q.2.proximity then
        some ⟨Constraint.Max, q.2.count - q.1.count, q.2.proximity \ q.1.proximity, s.iteration⟩
      else none))

/-- Rule `MaxIntersectsMinCombinator`. -/
def maxIntersectsMin (s : Solver) : List Fact :=
  (s.pairs).filterMap (fun p =>
    (asMinMax p.1 p.2).bind (fun q =>
      let inter := q.1.proximity ∩ q.2.proximity
      if inter = ∅ then none
      else
        let m := Nat.min q.2.count inter.card
        if q.1.count ≤ m then none
        else some ⟨Constraint.Min, q.1.count - m, q.1.proximity \ q.2.proximity, s.iteration⟩))

/-- One pass of the saturation loop of `Solver::run`: bump the iteration
counter, derive with every rule (in registration order) and insert. -/
def step (s : Solver) : Solver :=
  let s1 : Solver := ⟨s.facts, s.iteration + 1⟩
  ⟨addAll s1.facts
      (minAllToExact s1 ++ maxZeroToExact s1 ++ exactToMin s1 ++ exactToMax s1 ++
        minWithinMax s1 ++ maxIntersectsMin s1),
    s1.iteration⟩

/-- `Solver::run` with explicit fuel: repeat `step` while the fact list
grows. -/
def runFuel : ℕ → Solver → Solver
  | 0, s => s
  | fuel + 1, s =>
      let s2 := step s
      if s.facts.length < s2.facts.length then runFuel fuel s2 else s2

/-- The union of all proximities currently in the repository. -/
def unionProx (s : Solver) : Finset Location :=
  s.facts.foldl (fun acc f => acc ∪ f.proximity) ∅

/-- The largest count currently in the repository. -/
def maxCount (s : Solver) : ℕ :=
  s.facts.foldl (fun acc f => Nat.max acc f.count) 0

/-- An upper bound on the number of distinct fact keys any run starting
from `s` can ever contain (kinds × counts × subsets of the proximity
universe), plus one. -/
def factBound (s : Solver) : ℕ :=
  3 * (maxCount s + 1) * 2 ^ (unionProx s).card + 1

/-- `Solver::run`: the unbounded loop of the source, realised with fuel
that is proved sufficient to reach the fixpoint. -/
def run (s : Solver) : Solver := runFuel (factBound s) s

/-- `Solver::seed`: one `Exact` fact per revealed cell, over its Hidden
neighbours. -/
def seedFacts (mf : Minefield) : List Fact :=
  let fog := mf.fog
  let makeProximity : Location → Finset Location := fun l =>
    (l.neighbours.filter (fun l2 => ((fog.get l2).map State.isHidden).getD false)).toFinset
  ((Location.generateAll fog.width fog.height).zip fog.area).filterMap
    (fun p => (p.2.asRevealed).map (fun n => Fact.seeded n (makeProximity p.1)))

/-- A fresh repository with the board's seed facts inserted
(`Solver::new` followed by `Solver::seed`). -/
def initState (mf : Minefield) : Solver := ⟨addAll [] (seedFacts mf), 0⟩

/-- The proximity of the universal fact: every cell whose fog is Hidden
or Marked. -/
def universalProx (mf : Minefield) : Finset Location :=
  ((((Location.generateAll mf.fog.width mf.fog.height).zip mf.fog.area).filter
      (fun p => p.2.isHidden || p.2.isMarked)).map Prod.fst).toFinset

/-- `Solver::seed_universal_fact`: insert (without replacing) the fact
`(Exact, mine_count, hidden-or-marked cells)` tagged with the current
iteration. -/
def seedUniversalFact (s : Solver) (mf : Minefield) : Solver :=
  ⟨addAll s.facts [⟨Constraint.Exact, mf.mineCount, universalProx mf, s.iteration⟩], s.iteration⟩

/-- `Solver::guaranteed_safe_locations`. -/
def guaranteedSafeLocations (s : Solver) : Finset Location :=
  (s.facts.filter (fun f => f.isExact && f.count = 0)).foldl
    (fun acc f => acc ∪ f.proximity) ∅

/-- `Solver::guaranteed_mines`. -/
def guaranteedMines (s : Solver) : Finset Location :=
  (s.facts.filter (fun f => f.isExact && f.count = f.proximity.card)).foldl
    (fun acc f => acc ∪ f.proximity) ∅

end Solver

/-- Modelled from the spec: `Minefield::unobserved_count` is called by
`Solver::solve_dump` but its definition is absent from the provided
sources.  The spec describes it as "the number of unobserved cells
(hidden, not marked-as-known)"; an unobserved cell is taken to be a
Hidden cell that no Revealed cell observes, i.e. one with no Revealed
neighbour (equivalently, one occurring in no seeded proximity).  This is
the reading under which the spec's own endgame scenarios D and E — which
it says require the universal fact — go through. -/
def Minefield.unobservedCount (mf : Minefield) : ℕ :=
  ((Location.generateAll mf.fog.width mf.fog.height).zip mf.fog.area).countP
    (fun p => p.2.isHidden &&
      !(p.1.neighbours.any (fun l2 => ((mf.fog.get l2).map State.isRevealed).getD false)))

namespace Solver

/-- `Solver::solve` (via `solve_dump`, dump path elided): seed, saturate,
then — when few enough cells remain unobserved — seed the universal fact
and saturate again.  The source computes
`mine_count() - guaranteed_mines().len()` with unchecked `usize`
subtraction; `none` models the arithmetic-underflow panic of a checked
build when the derived guaranteed mines outnumber the actual mines. -/
def solve (mf : Minefield) : Option (Finset Location × Finset Location) :=
  let s1 := run (initState mf)
  let gm := guaranteedMines s1
  if gm.card ≤ mf.mineCount then
    let remaining := mf.mineCount - gm.card
    let s2 := if mf.unobservedCount ≤ remaining then run (seedUniversalFact s1 mf) else s1
    some (guaranteedSafeLocations s2, guaranteedMines s2)
  else none

end Solver

/-! ## Reachability -/

/-- The generator obligation of a command step: if the board is still in
`Initial` state, the ground installed by `execute` must be a possible
output of `ImprovedGenerator::generate` for the board's parameters and
the command's location (`Minefield::new` installs `ImprovedGenerator`). -/
def GenCond (mf : Minefield) (cmd : PendingCommand) (gen : Area GroundKind) : Prop :=
  ∀ mc, mf.state = GameState.Initial mc →
    ImprovedGenerator.Generates ⟨mf.fog.width, mf.fog.height, mc⟩ cmd.location gen

/-- The minefields reachable from a fresh `Minefield::new` board by any
sequence of `execute` commands. -/
inductive Reachable : Minefield → Prop where
  | base (p : Parameters) : Reachable (Minefield.new p)
  | step {mf : Minefield} {gen : Area GroundKind} {cmd : PendingCommand}
      {r : ExecutionResult} {mf2 : Minefield} :
      Reachable mf → GenCond mf cmd gen →
      mf.executeO gen cmd = some (r, mf2) → Reachable mf2

/-- Projection used to chain concrete executions without writing out the
intermediate boards. -/
def extractMf (o : Option (ExecutionResult × Minefield)) : Minefield :=
  match o with
  | some p => p.2
  | none => Minefield.new ⟨0, 0, 0⟩

/-- The set of mine cells of a board (the "actual mines"). -/
def minesSet (mf : Minefield) : Finset Location :=
  ((Location.generateAll mf.ground.width mf.ground.height).filter
    (fun l => decide (mf.ground.get l = some GroundKind.Mine))).toFinset

/-- The mined-locations component of a solver result. -/
def minedOf (o : Option (Finset Location × Finset Location)) : Finset Location :=
  (o.map Prod.snd).getD ∅

/-- The safe-locations component of a solver result. -/
def safeOf (o : Option (Finset Location × Finset Location)) : Finset Location :=
  (o.map Prod.fst).getD ∅

/-- A generator argument for `executeO` calls whose board is no longer in
`Initial` state (the stored generator is not invoked there). -/
def dummyGround : Area GroundKind := Area.empty GroundKind

/-- The revealed-cell invariant of the spec: a Revealed cell sits on
Dirt and shows exactly its number of mine neighbours. -/
def RevealedInv (mf : Minefield) : Prop :=
  ∀ l n, mf.fog.get l = some (State.Revealed n) →
    mf.ground.get l = some GroundKind.Dirt ∧ n = Minefield.minesInProximity mf.ground l

/-- The inductive invariant carried along `Reachable`: in `Initial`
state the fog is all Hidden; the ground is either the empty default or a
grid matching the fog's dimensions; both grids are well-formed; and the
revealed-cell invariant holds. -/
def MfInv (mf : Minefield) : Prop :=
  (mf.state.isInitial = true → ∀ s ∈ mf.fog.area, s = State.Hidden) ∧
  (mf.ground = Area.empty GroundKind ∨
    (mf.ground.width = mf.fog.width ∧ mf.ground.height = mf.fog.height ∧
      mf.ground.area.length = mf.fog.area.length)) ∧
  mf.ground.area.length = mf.ground.width * mf.ground.height ∧
  mf.fog.area.length = mf.fog.width * mf.fog.height ∧
  RevealedInv mf

/-- Truth of a solver fact with respect to the actual mine set `M`:
`(Min, c, P)` means at least `c` mines in `P`, `(Exact, c, P)` exactly
`c`, `(Max, c, P)` at most `c`. -/
def FactTrue (M : Finset Location) (f : Fact) : Prop :=
  match f.kind with
  | Constraint.Min => f.count ≤ (f.proximity ∩ M).card
  | Constraint.Exact => (f.proximity ∩ M).card = f.count
  | Constraint.Max => (f.proximity ∩ M).card ≤ f.count

/-- Every fact of the repository is true of the mine set `M`. -/
def Solver.AllTrue (M : Finset Location) (s : Solver) : Prop :=
  ∀ f ∈ s.facts, FactTrue M f

/-- The key set of the repository (the identity used by the `HashSet`). -/
def Solver.keys (s : Solver) : Finset (Constraint × ℕ × Finset Location) :=
  (s.facts.map Fact.key).toFinset

/-! ## Concrete boards used by the claims -/

section ConcreteBoards

/-- C10: a 1×1 board holding one hidden mine, mid-game. -/
def c10board : Minefield :=
  ⟨⟨[GroundKind.Mine], 1, 1⟩, ⟨[State.Hidden], 1, 1⟩, GameState.InProgress⟩

/-- C9: ground of the flood-fill scenario — a 10×10 grid with a single
mine at (0,0). -/
def floodGround : Area GroundKind :=
  ⟨(List.replicate 100 GroundKind.Dirt).set 0 GroundKind.Mine, 10, 10⟩

/-- C9: the flood-fill scenario board (fog all Hidden, game running). -/
def floodBoard : Minefield :=
  ⟨floodGround, ⟨List.replicate 100 State.Hidden, 10, 10⟩, GameState.InProgress⟩

/-- C9: the board after `Reveal` at (9,9). -/
def floodAfter : Minefield :=
  extractMf (floodBoard.executeO dummyGround ⟨Location.mkN 9 9, Action.Reveal⟩)

/-- C9: the expected fog contents after the flood fill (row-major). -/
def floodExpected : List State :=
  [State.Hidden, State.Revealed 1] ++ List.replicate 8 (State.Revealed 0) ++
    ([State.Revealed 1, State.Revealed 1] ++ List.replicate 8 (State.Revealed 0)) ++
    List.replicate 80 (State.Revealed 0)

/-- C8: the board `e1F1e` — one marked mine flanked by two revealed `1`
cells, each with a separate hidden dirt neighbour.  The marked-mine
seeding makes the solver derive two distinct guaranteed mines while the
ground holds only one. -/
def c8board : Minefield :=
  ⟨⟨[GroundKind.Dirt, GroundKind.Dirt, GroundKind.Mine, GroundKind.Dirt, GroundKind.Dirt], 5, 1⟩,
   ⟨[State.Hidden, State.Revealed 1, State.Marked, State.Revealed 1, State.Hidden], 5, 1⟩,
   GameState.InProgress⟩

/-- C2: a fresh 4×4 board with one mine, still in `Initial` state. -/
def c2start : Minefield := Minefield.new ⟨4, 4, 1⟩

/-- C2: a ground `ImprovedGenerator` can produce for the first command at
(0,0) (sample `{0}`; the skipper moves the mine to index 2). -/
def c2gen : Area GroundKind :=
  ImprovedGenerator.buildGround ⟨4, 4, 1⟩ (Location.mkN 0 0) {0}

/-- C2: the board returned together with `Failed` by the first `Unmark`. -/
def c2after : Minefield :=
  extractMf (c2start.executeO c2gen ⟨Location.mkN 0 0, Action.Unmark⟩)

/-- C6: a 2×1 all-dirt board, mid-game, fog all hidden. -/
def c6board : Minefield :=
  ⟨⟨[GroundKind.Dirt, GroundKind.Dirt], 2, 1⟩,
   ⟨[State.Hidden, State.Hidden], 2, 1⟩, GameState.InProgress⟩

/-- C6: the board after one `ToggleMark` at (0,0). -/
def c6once : Minefield :=
  extractMf (c6board.executeO dummyGround ⟨Location.mkN 0 0, Action.ToggleMark⟩)

/-- C6: the board after a second `ToggleMark` at (0,0). -/
def c6twice : Minefield :=
  extractMf (c6once.executeO dummyGround ⟨Location.mkN 0 0, Action.ToggleMark⟩)

/-- C5: a ground `ImprovedGenerator` can produce on a 4×4 board with one
mine for a first command at (3,3): sample `{0}` puts the mine at (0,0). -/
def c5gen : Area GroundKind :=
  ImprovedGenerator.buildGround ⟨4, 4, 1⟩ (Location.mkN 3 3) {0}

/-- C5: the fresh 4×4 board. -/
def c5s0 : Minefield := Minefield.new ⟨4, 4, 1⟩

/-- C5: after `Reveal (3,3)` — every dirt cell floods open, the mine at
(0,0) stays hidden. -/
def c5s1 : Minefield := extractMf (c5s0.executeO c5gen ⟨Location.mkN 3 3, Action.Reveal⟩)

/-- C5: after `Mark (0,0)` — every dirt revealed and the mine marked,
so the game transitions to `Win`. -/
def c5s2 : Minefield := extractMf (c5s1.executeO dummyGround ⟨Location.mkN 0 0, Action.Mark⟩)

/-- C5: after `Unmark (0,0)` — executed in the terminal `Win` state,
the command still succeeds and hides the mine's mark again. -/
def c5s3 : Minefield := extractMf (c5s2.executeO dummyGround ⟨Location.mkN 0 0, Action.Unmark⟩)

/-- C1: a ground `ImprovedGenerator` can produce on a 13×1 board with
one mine for a first command at (12,0): sample `{0}` keeps the mine at
(0,0). -/
def c1gen : Area GroundKind :=
  ImprovedGenerator.buildGround ⟨13, 1, 1⟩ (Location.mkN 12 0) {0}

/-- C1: the fresh 13×1 board. -/
def c1s0 : Minefield := Minefield.new ⟨13, 1, 1⟩

/-- C1: after `Mark (12,0)` (the first command, installing `c1gen`). -/
def c1s1 : Minefield := extractMf (c1s0.executeO c1gen ⟨Location.mkN 12 0, Action.Mark⟩)

/-- C1: after `Unmark (12,0)`. -/
def c1s2 : Minefield := extractMf (c1s1.executeO dummyGround ⟨Location.mkN 12 0, Action.Unmark⟩)

/-- C1: after `Mark (0,0)` — the player marks the actual mine. -/
def c1s3 : Minefield := extractMf (c1s2.executeO dummyGround ⟨Location.mkN 0 0, Action.Mark⟩)

/-- C1: after `Mark (2,0)` — a temporary mark blocking the flood fill. -/
def c1s4 : Minefield := extractMf (c1s3.executeO dummyGround ⟨Location.mkN 2 0, Action.Mark⟩)

/-- C1: after `Reveal (12,0)` — floods cells (3,0)…(12,0). -/
def c1s5 : Minefield := extractMf (c1s4.executeO dummyGround ⟨Location.mkN 12 0, Action.Reveal⟩)

/-- C1: after `Reveal (1,0)` — revealed with `adj_mines = 1`. -/
def c1s6 : Minefield := extractMf (c1s5.executeO dummyGround ⟨Location.mkN 1 0, Action.Reveal⟩)

/-- C1: after `Unmark (2,0)` — final board: the mine at (0,0) is Marked,
(1,0) shows `1`, (2,0) is Hidden dirt, the rest is Revealed. -/
def c1s7 : Minefield := extractMf (c1s6.executeO dummyGround ⟨Location.mkN 2 0, Action.Unmark⟩)

/-- C1 (witness board): the 13×1 board after a plain first `Reveal` at
(12,0) — no marks anywhere, fog only Hidden/Revealed. -/
def c1w : Minefield := extractMf (c1s0.executeO c1gen ⟨Location.mkN 12 0, Action.Reveal⟩)

end ConcreteBoards

set_option maxRecDepth 100000

/-! ## Basic lemmas -/

theorem Reachable.stepAuto {mf : Minefield} {gen : Area GroundKind} {cmd : PendingCommand}
    (h : Reachable mf) (hg : GenCond mf cmd gen)
    (hs : (mf.executeO gen cmd).isSome = true) :
    Reachable (extractMf (mf.executeO gen cmd)) := by
  cases ho : mf.executeO gen cmd with
  | none => rw [ho] at hs; simp at hs
  | some p =>
      exact Reachable.step h hg (show mf.executeO gen cmd = some (p.1, p.2) by rw [ho])

lemma GenCond.ofNotInitial {mf : Minefield} {cmd : PendingCommand} {gen : Area GroundKind}
    (h : mf.state.isInitial = false) : GenCond mf cmd gen := by
  intro mc hmc
  rw [hmc] at h
  simp [GameState.isInitial] at h

/-! ### Geometry and grid lemmas -/

lemma Location.toIndex_eq_some {l : Location} {w i : ℕ} (h : l.toIndex w = some i) :
    ∃ x y, l = ⟨Bounded.Valid x, Bounded.Valid y⟩ ∧ x < w ∧ i = y * w + x := by
  obtain ⟨lx, ly⟩ := l
  cases lx with
  | Invalid => simp [Location.toIndex] at h
  | Valid x =>
      cases ly with
      | Invalid =>
          unfold Location.toIndex at h
          simp only at h
          split at h
          · simp [Bounded.mul, Bounded.add, Bounded.toOption] at h
          · exact absurd h (by simp)
      | Valid y =>
          by_cases hx : x < w
          · refine ⟨x, y, rfl, hx, ?_⟩
            simp [Location.toIndex, hx, Bounded.mul, Bounded.add, Bounded.toOption] at h
            omega
          · simp [Location.toIndex, hx] at h

lemma Location.toIndex_valid {x y w : ℕ} (hx : x < w) :
    Location.toIndex ⟨Bounded.Valid x, Bounded.Valid y⟩ w = some (y * w + x) := by
  simp [Location.toIndex, hx, Bounded.mul, Bounded.add, Bounded.toOption]

lemma Location.toIndex_inj {l1 l2 : Location} {w i : ℕ}
    (h1 : l1.toIndex w = some i) (h2 : l2.toIndex w = some i) : l1 = l2 := by
  obtain ⟨x1, y1, rfl, hx1, hi1⟩ := Location.toIndex_eq_some h1
  obtain ⟨x2, y2, rfl, hx2, hi2⟩ := Location.toIndex_eq_some h2
  have e1 : i % w = x1 := by
    rw [hi1, Nat.mul_comm y1 w, Nat.mul_add_mod, Nat.mod_eq_of_lt hx1]
  have e2 : i % w = x2 := by
    rw [hi2, Nat.mul_comm y2 w, Nat.mul_add_mod, Nat.mod_eq_of_lt hx2]
  have hxx : x1 = x2 := by omega
  have hw : 0 < w := by omega
  have hyy : y1 = y2 := by
    have hmul : y1 * w = y2 * w := by omega
    exact Nat.eq_of_mul_eq_mul_right hw hmul
  rw [hxx, hyy]

lemma Area.get_some_lt {T : Type} {a : Area T} {l : Location} {x : T} (h : a.get l = some x) :
    ∃ i, l.toIndex a.width = some i ∧ i < a.area.length ∧ a.area.get? i = some x := by
  unfold Area.get at h
  cases hti : l.toIndex a.width with
  | none => simp only [hti] at h; simp at h
  | some i =>
      simp only [hti] at h
      obtain ⟨hlt, _⟩ := List.get?_eq_some.mp h
      exact ⟨i, rfl, hlt, h⟩

lemma Area.get_set_self {T : Type} {a : Area T} {l : Location} {v x : T}
    (h : a.get l = some x) : (a.set l v).get l = some v := by
  obtain ⟨i, hti, hlt, hgi⟩ := Area.get_some_lt h
  unfold Area.set Area.get
  simp only [hti, Option.getD_some]
  exact List.get?_set_eq_of_lt v hlt

lemma Area.get_set_or {T : Type} {a : Area T} {l l2 : Location} {v x : T}
    (h : a.get l = some x) :
    ((a.set l v).get l2 = a.get l2) ∨
      ((a.set l v).get l2 = some v ∧ a.get l2 = some x ∧ l2 = l) := by
  obtain ⟨i, hti, hlt, hgi⟩ := Area.get_some_lt h
  unfold Area.set Area.get
  cases hti2 : l2.toIndex a.width with
  | none => left; simp only [hti2]
  | some j =>
      by_cases hij : i = j
      · subst hij
        right
        refine ⟨?_, ?_, Location.toIndex_inj hti2 hti⟩
        · simp only [hti, hti2, Option.getD_some]
          exact List.get?_set_eq_of_lt v hlt
        · simp only [hti2]
          exact hgi
      · left
        simp only [hti, hti2, Option.getD_some]
        exact List.get?_set_ne v _ hij

lemma zip_all_get {α β : Type} {p : α × β → Bool} {as : List α} {bs : List β}
    (h : (as.zip bs).all p = true) {i : ℕ} {x : α} {y : β}
    (hx : as.get? i = some x) (hy : bs.get? i = some y) : p (x, y) = true := by
  induction as generalizing bs i with
  | nil => simp at hx
  | cons a as ih =>
      cases bs with
      | nil => simp at hy
      | cons b bs =>
          rw [List.zip_cons_cons, List.all_cons, Bool.and_eq_true] at h
          cases i with
          | zero =>
              simp only [List.get?] at hx hy
              obtain rfl := Option.some.inj hx
              obtain rfl := Option.some.inj hy
              exact h.1
          | succ n =>
              simp only [List.get?] at hx hy
              exact ih h.2 hx hy

/-! ### `GameState.update` lemmas -/

lemma GameState.updateNew_win {st : GameState} {fog : Area State} {ground : Area GroundKind}
    (hu : st.updateNew fog ground = some GameState.Win) (hne : st ≠ GameState.Win) :
    wonPred fog ground = true := by
  cases st with
  | Initial mc =>
      simp only [GameState.updateNew] at hu
      split at hu
      · simp at hu
      · split at hu <;> simp at hu
  | InProgress =>
      simp only [GameState.updateNew] at hu
      cases hwon : wonPred fog ground <;> cases hlost : lostPred fog <;>
          rw [hwon, hlost] at hu <;>
        first
          | exact hwon
          | simp at hu
  | Loss => simp [GameState.updateNew] at hu
  | Win => exact absurd rfl hne

lemma GameState.updateNew_not_initial {st : GameState} {fog : Area State}
    {ground : Area GroundKind} {n : GameState}
    (hst : st.isInitial = false) (hu : st.updateNew fog ground = some n) :
    n.isInitial = false := by
  cases st with
  | Initial mc => simp [GameState.isInitial] at hst
  | InProgress =>
      simp only [GameState.updateNew] at hu
      cases hwon : wonPred fog ground <;> cases hlost : lostPred fog <;>
          rw [hwon, hlost] at hu <;>
        first
          | (obtain rfl := Option.some.inj hu; rfl)
          | simp at hu
  | Loss =>
      simp only [GameState.updateNew] at hu
      obtain rfl := Option.some.inj hu; rfl
  | Win =>
      simp only [GameState.updateNew] at hu
      obtain rfl := Option.some.inj hu; rfl

lemma GameState.updateNew_initial {st : GameState} {fog : Area State}
    {ground : Area GroundKind} {n : GameState}
    (hu : st.updateNew fog ground = some n) (hn : n.isInitial = true) :
    n = st ∧ fog.area.all State.isHidden = true := by
  cases st with
  | Initial mc =>
      simp only [GameState.updateNew] at hu
      split at hu
      · next hall => obtain rfl := Option.some.inj hu; exact ⟨rfl, by simpa using hall⟩
      · split at hu <;>
          (obtain rfl := Option.some.inj hu; simp [GameState.isInitial] at hn)
  | InProgress =>
      simp only [GameState.updateNew] at hu
      cases hwon : wonPred fog ground <;> cases hlost : lostPred fog <;>
          rw [hwon, hlost] at hu <;>
        first
          | (obtain rfl := Option.some.inj hu; simp [GameState.isInitial] at hn)
          | simp at hu
  | Loss =>
      simp only [GameState.updateNew] at hu
      obtain rfl := Option.some.inj hu; simp [GameState.isInitial] at hn
  | Win =>
      simp only [GameState.updateNew] at hu
      obtain rfl := Option.some.inj hu; simp [GameState.isInitial] at hn

/-! ### `executeO` structural lemmas -/

lemma Minefield.executeO_spec {mf : Minefield} {gen : Area GroundKind} {cmd : PendingCommand}
    {r : ExecutionResult} {mf2 : Minefield}
    (hx : mf.executeO gen cmd = some (r, mf2)) :
    mf2.ground = (match mf.state with | GameState.Initial _ => gen | _ => mf.ground) ∧
    ((r = ExecutionResult.Failed ∧ mf2.fog = mf.fog ∧ mf2.state = mf.state) ∨
     (r ≠ ExecutionResult.Failed ∧
       mf.state.updateNew mf2.fog mf2.ground = some mf2.state)) := by
  simp only [Minefield.executeO] at hx
  split at hx <;>
    first
      | -- success arms: the inner match on `GameState.update`
        (split at hx
         · exact absurd hx (by simp)
         · rename_i p heq
           have hpair := Option.some.inj hx
           rw [Prod.mk.injEq] at hpair
           obtain ⟨hr, hm⟩ := hpair
           subst hm
           obtain ⟨n, hn, hp⟩ := Option.map_eq_some'.mp heq
           subst hp
           refine ⟨rfl, Or.inr ⟨?_, hn⟩⟩
           rw [← hr]; split <;> simp)
      | -- the Failed arm
        (have hpair := Option.some.inj hx
         rw [Prod.mk.injEq] at hpair
         obtain ⟨hr, hm⟩ := hpair
         subst hm
         exact ⟨rfl, Or.inl ⟨hr.symm, rfl, rfl⟩⟩)

lemma Minefield.executeO_fail_of {mf : Minefield} {gen : Area GroundKind} {cmd : PendingCommand}
    (h : match cmd.action, mf.fog.get cmd.location with
      | Action.Reveal, some State.Hidden => False
      | Action.Mark, some State.Hidden => False
      | Action.ToggleMark, some State.Hidden => False
      | Action.Unmark, some State.Marked => False
      | Action.ToggleMark, some State.Marked => False
      | _, _ => True) :
    mf.executeO gen cmd = some (ExecutionResult.Failed,
      ⟨(match mf.state with | GameState.Initial _ => gen | _ => mf.ground),
        mf.fog, mf.state⟩) := by
  simp only [Minefield.executeO]
  split
  · rename_i ha hf; rw [ha, hf] at h; exact h.elim
  · rename_i ha hf; rw [ha, hf] at h; exact h.elim
  · rename_i ha hf; rw [ha, hf] at h; exact h.elim
  · rename_i ha hf; rw [ha, hf] at h; exact h.elim
  · rename_i ha hf; rw [ha, hf] at h; exact h.elim
  · rfl

/-! ### Flood-fill lemmas -/

lemma Minefield.revealAux_dims (ground : Area GroundKind) :
    ∀ (fuel : ℕ) (fog : Area State) (queue acc : List Location),
      (Minefield.revealAux ground fuel fog queue acc).1.width = fog.width ∧
      (Minefield.revealAux ground fuel fog queue acc).1.height = fog.height ∧
      (Minefield.revealAux ground fuel fog queue acc).1.area.length = fog.area.length := by
  intro fuel
  induction fuel with
  | zero => intro fog queue acc; exact ⟨rfl, rfl, rfl⟩
  | succ n ih =>
      intro fog queue acc
      cases queue with
      | nil => exact ⟨rfl, rfl, rfl⟩
      | cons current rest =>
          show (Minefield.revealAux ground (n + 1) fog (current :: rest) acc).1.width = _ ∧ _
          unfold Minefield.revealAux
          cases hf : fog.get current with
          | none => simpa [hf] using ih fog rest acc
          | some s =>
              cases s with
              | Hidden =>
                  cases hg : ground.get current with
                  | none => simpa [hf, hg] using ih fog rest acc
                  | some gk =>
                      cases gk with
                      | Dirt =>
                          simp only [hf, hg]
                          have h2 := ih (fog.set current
                            (State.Revealed (Minefield.minesInProximity ground current)))
                            (if Minefield.minesInProximity ground current = 0 then
                              rest ++ current.neighbours else rest) (acc ++ [current])
                          simpa [Area.set] using h2
                      | Mine =>
                          simp only [hf, hg]
                          have h2 := ih (fog.set current State.Exploded) rest (acc ++ [current])
                          simpa [Area.set] using h2
              | Marked => simpa [hf] using ih fog rest acc
              | Revealed k => simpa [hf] using ih fog rest acc
              | Exploded => simpa [hf] using ih fog rest acc

lemma Minefield.revealAux_get_or (ground : Area GroundKind) (l : Location) :
    ∀ (fuel : ℕ) (fog : Area State) (queue acc : List Location),
      ((Minefield.revealAux ground fuel fog queue acc).1.get l = fog.get l) ∨
      (fog.get l = some State.Hidden ∧
        ((Minefield.revealAux ground fuel fog queue acc).1.get l = some State.Exploded ∨
         ∃ n, (Minefield.revealAux ground fuel fog queue acc).1.get l =
            some (State.Revealed n))) := by
  intro fuel
  induction fuel with
  | zero => intro fog queue acc; exact Or.inl rfl
  | succ n ih =>
      intro fog queue acc
      cases queue with
      | nil => exact Or.inl rfl
      | cons current rest =>
          unfold Minefield.revealAux
          cases hf : fog.get current with
          | none => simpa [hf] using ih fog rest acc
          | some s =>
              cases s with
              | Hidden =>
                  cases hg : ground.get current with
                  | none => simpa [hf, hg] using ih fog rest acc
                  | some gk =>
                      cases gk with
                      | Dirt =>
                          simp only [hf, hg]
                          set k := Minefield.minesInProximity ground current with hk
                          set fog2 := fog.set current (State.Revealed k) with hfog2
                          rcases @Area.get_set_or _ _ _ l (State.Revealed k) _ hf with
                            hsame | ⟨hhit, hold, hleq⟩
                          · rcases ih fog2 (if k = 0 then rest ++ current.neighbours else rest)
                                (acc ++ [current]) with h1 | ⟨h1, h2⟩
                            · rw [← hfog2] at hsame
                              exact Or.inl (h1.trans hsame)
                            · rw [← hfog2] at hsame
                              rw [hsame] at h1
                              exact Or.inr ⟨h1, h2⟩
                          · rw [← hfog2] at hhit
                            rcases ih fog2 (if k = 0 then rest ++ current.neighbours else rest)
                                (acc ++ [current]) with h1 | ⟨h1, h2⟩
                            · rw [hhit] at h1
                              exact Or.inr ⟨hold, Or.inr ⟨k, h1⟩⟩
                            · rw [hhit] at h1; simp at h1
                      | Mine =>
                          simp only [hf, hg]
                          set fog2 := fog.set current State.Exploded with hfog2
                          rcases @Area.get_set_or _ _ _ l State.Exploded _ hf with
                            hsame | ⟨hhit, hold, hleq⟩
                          · rcases ih fog2 rest (acc ++ [current]) with h1 | ⟨h1, h2⟩
                            · rw [← hfog2] at hsame
                              exact Or.inl (h1.trans hsame)
                            · rw [← hfog2] at hsame
                              rw [hsame] at h1
                              exact Or.inr ⟨h1, h2⟩
                          · rw [← hfog2] at hhit
                            rcases ih fog2 rest (acc ++ [current]) with h1 | ⟨h1, h2⟩
                            · rw [hhit] at h1
                              exact Or.inr ⟨hold, Or.inl h1⟩
                            · rw [hhit] at h1; simp at h1
              | Marked => simpa [hf] using ih fog rest acc
              | Revealed k => simpa [hf] using ih fog rest acc
              | Exploded => simpa [hf] using ih fog rest acc

lemma Minefield.revealLocation_get_start {fog : Area State} {ground : Area GroundKind}
    {loc : Location} {gk : GroundKind}
    (hf : fog.get loc = some State.Hidden) (hg : ground.get loc = some gk) :
    ((Minefield.revealLocation fog ground loc).1.get loc = some State.Exploded ∨
     ∃ n, (Minefield.revealLocation fog ground loc).1.get loc = some (State.Revealed n)) := by
  unfold Minefield.revealLocation Minefield.revealAux
  simp only [hf, hg]
  cases gk with
  | Dirt =>
      set k := Minefield.minesInProximity ground loc with hk
      have h2 : (fog.set loc (State.Revealed k)).get loc = some (State.Revealed k) :=
        Area.get_set_self hf
      rcases Minefield.revealAux_get_or ground loc (9 * fog.area.length)
          (fog.set loc (State.Revealed k))
          (if k = 0 then [] ++ loc.neighbours else []) ([] ++ [loc]) with h1 | ⟨h1, _⟩
      · rw [h2] at h1
        exact Or.inr ⟨k, h1⟩
      · rw [h2] at h1; simp at h1
  | Mine =>
      have h2 : (fog.set loc State.Exploded).get loc = some State.Exploded :=
        Area.get_set_self hf
      rcases Minefield.revealAux_get_or ground loc (9 * fog.area.length)
          (fog.set loc State.Exploded) [] ([] ++ [loc]) with h1 | ⟨h1, _⟩
      · rw [h2] at h1
        exact Or.inl h1
      · rw [h2] at h1; simp at h1

/-! ## C10 — reset -/

/-- C10 (counterexample).  The claim says `reset()` preserves
`mine_count`; but `reset` empties the ground and `Minefield::mine_count`
counts the mines of the ground, so on a 1×1 board holding one mine the
accessor drops from 1 to 0 across the call (the pre-call value survives
only inside the `Initial` state payload). -/
theorem C10_reset_counterexample :
    c10board.mineCount = 1 ∧ c10board.reset.mineCount = 0 ∧
    c10board.reset.state = GameState.Initial 1 := ⟨rfl, rfl, rfl⟩

/-- C10 (amended).  `reset()` puts the board into `Initial` carrying the
pre-call `mine_count()` value, replaces the fog by an all-Hidden grid of
the same dimensions, and preserves `width` and `height`; the
`mine_count()` accessor itself reads the now-empty ground and returns 0
until the generator runs again. -/
theorem C10_reset_amended (mf : Minefield) :
    mf.reset.state = GameState.Initial mf.mineCount ∧
    mf.reset.fog.area = List.replicate (mf.width * mf.height) State.Hidden ∧
    mf.reset.width = mf.width ∧ mf.reset.height = mf.height ∧
    mf.reset.mineCount = 0 :=
  ⟨rfl, rfl, rfl, rfl, rfl⟩

/-! ## C9 — flood-fill scenario -/

/-- C9 (counterexample).  After `Reveal` at (9,9) on the 10×10 board with
a single mine at (0,0), the cell (1,0) — distinct from (1,1) — is
revealed with `adj_mines = 1`, contradicting "`adj_mines = 0` at every
other revealed cell" ((0,1) likewise borders the mine). -/
theorem C9_flood_counterexample :
    floodAfter.fog.get (Location.mkN 1 0) = some (State.Revealed 1) ∧
    Location.mkN 1 0 ≠ Location.mkN 1 1 := by
  constructor
  · rfl
  · decide

/-- C9 (amended).  `Reveal` at (9,9) transitions exactly 99 cells to
Revealed; `adj_mines = 1` at the three cells bordering the mine —
(1,0), (0,1) and (1,1), i.e. flat indices 1, 10 and 11 — and 0 at every
other revealed cell; the mine cell itself stays Hidden. -/
theorem C9_flood_amended :
    floodAfter.fog.area = floodExpected ∧
    floodExpected.countP State.isRevealed = 99 ∧
    floodExpected.countP (fun s => s = State.Revealed 1) = 3 ∧
    floodExpected.countP (fun s => s = State.Revealed 0) = 96 ∧
    floodExpected.get? 1 = some (State.Revealed 1) ∧
    floodExpected.get? 10 = some (State.Revealed 1) ∧
    floodExpected.get? 11 = some (State.Revealed 1) ∧
    floodExpected.get? 0 = some State.Hidden := by
  refine ⟨rfl, by decide, by decide, by decide, by decide, by decide, by decide, by decide⟩

/-! ## C8 — solver totality -/

/-- C8.  On the inconsistent board `e1F1e` the first saturation pass
derives guaranteed mines at (0,0) and (4,0) — two locations — while the
ground holds a single mine, so the unchecked `usize` subtraction
`mine_count() - guaranteed_mines().len()` in `Solver::solve_dump`
underflows: `solve` panics under overflow checks instead of returning
its two sets (in a release build the wrapped value silently drives the
endgame re-seeding).  `none` is the model's rendering of that panic. -/
theorem C8_solver_totality_bug :
    c8board.mineCount = 1 ∧
    (Solver.guaranteedMines (Solver.run (Solver.initState c8board))).card = 2 ∧
    Solver.solve c8board = none := by
  refine ⟨rfl, by decide, by decide⟩

/-! ## C6 — command idempotence (counterexample) -/

/-- C6 (counterexample).  `ToggleMark` is self-inverse, not idempotent:
on a running 2×1 board the second `ToggleMark` at (0,0) again returns
`Success` (not `Failed`) and flips the cell back to Hidden, so the board
after two executions differs from the board after one. -/
theorem C6_idempotence_counterexample :
    c6once.executeO dummyGround ⟨Location.mkN 0 0, Action.ToggleMark⟩ =
      some (ExecutionResult.SuccessNoStateChange [Location.mkN 0 0], c6twice) ∧
    c6twice.fog.area ≠ c6once.fog.area ∧
    c6once.fog.get (Location.mkN 0 0) = some State.Marked ∧
    c6twice.fog.get (Location.mkN 0 0) = some State.Hidden := by
  refine ⟨rfl, by decide, rfl, rfl⟩

/-! ## C2 — atomicity of failed commands (counterexample) -/

/-- C2 (counterexample).  On a board still in `Initial` state, `execute`
runs the generator and installs the produced ground *before* checking
the command's precondition; a first command `Unmark (0,0)` therefore
returns `Failed` while the ground has changed from the empty default to
a full 4×4 grid.  The ground used is a legitimate `ImprovedGenerator`
output for that first command. -/
theorem C2_failed_atomicity_counterexample :
    ImprovedGenerator.Generates ⟨4, 4, 1⟩ (Location.mkN 0 0) c2gen ∧
    c2start.executeO c2gen ⟨Location.mkN 0 0, Action.Unmark⟩ =
      some (ExecutionResult.Failed, c2after) ∧
    c2after.ground ≠ c2start.ground ∧
    c2after.ground.area.length = 16 ∧ c2start.ground.area.length = 0 := by
  refine ⟨⟨by norm_num, {0}, by decide, by decide, rfl⟩, rfl, by decide, rfl, rfl⟩

/-- C2 (amended).  When `execute` returns `Failed` the fog and the game
state are unchanged; the whole board (ground included) is unchanged
provided the state was not `Initial` — in `Initial` state the generator
has already installed a fresh ground before the precondition check. -/
theorem C2_failed_atomicity_amended (mf : Minefield) (gen : Area GroundKind)
    (cmd : PendingCommand) (mf2 : Minefield)
    (hx : mf.executeO gen cmd = some (ExecutionResult.Failed, mf2)) :
    mf2.fog = mf.fog ∧ mf2.state = mf.state ∧
    (mf.state.isInitial = false → mf2 = mf) := by
  obtain ⟨hg, hcase⟩ := Minefield.executeO_spec hx
  rcases hcase with ⟨_, hf, hs⟩ | ⟨hne, _⟩
  · refine ⟨hf, hs, ?_⟩
    intro hni
    have hgr : mf2.ground = mf.ground := by
      rw [hg]
      cases hst : mf.state with
      | Initial mc => rw [hst] at hni; simp [GameState.isInitial] at hni
      | InProgress => rfl
      | Loss => rfl
      | Win => rfl
    obtain ⟨g2, f2, s2⟩ := mf2
    obtain ⟨g0, f0, s0⟩ := mf
    simp only at hgr hf hs
    rw [hgr, hf, hs]
  · exact absurd rfl hne

/-- C2 (witness): the amended atomicity applied to a concrete failed
command — `Unmark (0,0)` on a running all-hidden board. -/
theorem C2_failed_atomicity_witness :
    (c6board.executeO dummyGround ⟨Location.mkN 0 0, Action.Unmark⟩ =
      some (ExecutionResult.Failed, c6board)) ∧
    (c6board.fog = c6board.fog ∧ c6board.state = c6board.state ∧
      (c6board.state.isInitial = false → c6board = c6board)) :=
  ⟨rfl, C2_failed_atomicity_amended c6board dummyGround ⟨Location.mkN 0 0, Action.Unmark⟩
    c6board rfl⟩

/-! ## C5 — Win invariant -/

lemma c5s0_genCond : GenCond c5s0 ⟨Location.mkN 3 3, Action.Reveal⟩ c5gen := by
  intro mc hmc
  have hmc1 : mc = 1 := by
    simp [c5s0, Minefield.new, GameState.new] at hmc
    omega
  subst hmc1
  exact ⟨by decide, {0}, by decide, by decide, rfl⟩

lemma c5s3_reachable : Reachable c5s3 := by
  have h0 : Reachable c5s0 := Reachable.base ⟨4, 4, 1⟩
  have h1 : Reachable c5s1 := h0.stepAuto c5s0_genCond (by decide)
  have h2 : Reachable c5s2 := h1.stepAuto (GenCond.ofNotInitial (by decide)) (by decide)
  exact h2.stepAuto (GenCond.ofNotInitial (by decide)) (by decide)

/-- C5 (counterexample).  A won game is reachable in which a further
legal `Unmark` succeeds while the terminal `Win` state persists: on the
resulting board the mine cell (0,0) is Hidden — neither revealed nor
(mine ∧ marked) — so `state = Win` no longer implies the claimed
per-cell XOR invariant. -/
theorem C5_win_counterexample :
    Reachable c5s3 ∧ c5s3.state = GameState.Win ∧
    c5s3.fog.get (Location.mkN 0 0) = some State.Hidden ∧
    c5s3.ground.get (Location.mkN 0 0) = some GroundKind.Mine ∧
    xor (State.Hidden).isRevealed
      (GroundKind.Mine.isMine && (State.Hidden == State.Marked)) = false :=
  ⟨c5s3_reachable, rfl, rfl, rfl, rfl⟩

/-- C5 (amended).  The XOR invariant holds at the moment `Win` is
entered: whenever an `execute` step moves a board that was not in `Win`
into `Win`, every cell of the resulting board satisfies
revealed XOR (mine ∧ marked).  (Later commands can still succeed in the
terminal state and destroy the property, as the counterexample shows.) -/
theorem C5_win_amended (mf : Minefield) (gen : Area GroundKind) (cmd : PendingCommand)
    (r : ExecutionResult) (mf2 : Minefield)
    (hx : mf.executeO gen cmd = some (r, mf2))
    (hwin : mf2.state = GameState.Win) (hold : mf.state ≠ GameState.Win)
    (hw : mf2.ground.width = mf2.fog.width) :
    ∀ l s g, mf2.fog.get l = some s → mf2.ground.get l = some g →
      xor s.isRevealed (g.isMine && s == State.Marked) = true := by
  obtain ⟨hg, hcase⟩ := Minefield.executeO_spec hx
  rcases hcase with ⟨_, _, hs⟩ | ⟨_, hupd⟩
  · rw [hwin] at hs; exact absurd hs.symm hold
  · rw [hwin] at hupd
    have hwon : wonPred mf2.fog mf2.ground = true :=
      GameState.updateNew_win hupd hold
    intro l s g hfs hgs
    obtain ⟨i, htif, hltf, hgetf⟩ := Area.get_some_lt hfs
    obtain ⟨j, htig, hltg, hgetg⟩ := Area.get_some_lt hgs
    rw [hw] at htig
    rw [htif] at htig
    obtain rfl := Option.some.inj htig
    unfold wonPred at hwon
    exact zip_all_get hwon hgetf hgetg

/-- C5 (witness): the amended invariant applied to the concrete winning
step of the C5 trace — `Mark (0,0)` transitions the 4×4 board into `Win`
and every cell then satisfies the XOR property. -/
theorem C5_win_amended_witness :
    (c5s1.executeO dummyGround ⟨Location.mkN 0 0, Action.Mark⟩ =
        some (ExecutionResult.SuccessAndStateChange [Location.mkN 0 0], c5s2)) ∧
    c5s2.state = GameState.Win ∧ c5s1.state ≠ GameState.Win ∧
    c5s2.ground.width = c5s2.fog.width ∧
    (∀ l s g, c5s2.fog.get l = some s → c5s2.ground.get l = some g →
      xor s.isRevealed (g.isMine && s == State.Marked) = true) := by
  refine ⟨rfl, rfl, by decide, rfl, ?_⟩
  exact C5_win_amended c5s1 dummyGround ⟨Location.mkN 0 0, Action.Mark⟩
    (ExecutionResult.SuccessAndStateChange [Location.mkN 0 0]) c5s2
    rfl rfl (by decide) rfl

/-! ## C6 — command idempotence (amended) -/

/-- If the first execution of a command fails, re-executing the same
command fails again with fog and state untouched. -/
lemma Minefield.executeO_failed_failed {mf mf1 mf2 : Minefield}
    {gen1 gen2 : Area GroundKind} {cmd : PendingCommand} {r2 : ExecutionResult}
    (hx1 : mf.executeO gen1 cmd = some (ExecutionResult.Failed, mf1))
    (hx2 : mf1.executeO gen2 cmd = some (r2, mf2)) :
    r2 = ExecutionResult.Failed ∧ mf2.fog = mf1.fog ∧ mf2.state = mf1.state ∧
    (mf.state.isInitial = false → mf2 = mf1) := by
  obtain ⟨hg1, hc⟩ := Minefield.executeO_spec hx1
  rcases hc with ⟨_, hfog1, hst1⟩ | ⟨hne, _⟩
  swap
  · exact absurd rfl hne
  simp only [Minefield.executeO] at hx2
  rw [hfog1, hst1] at hx2
  split at hx2 <;>
    first
      | -- a success arm of the second dispatch would contradict the first failure
        (rename_i ha hf
         exfalso
         simp only [Minefield.executeO, ha, hf] at hx1
         split at hx1
         · exact absurd hx1 (by simp)
         · have hp := Option.some.inj hx1
           rw [Prod.mk.injEq] at hp
           have := hp.1
           revert this
           split <;> simp)
      | -- the catch-all: the second execution fails the same way
        (have hp := Option.some.inj hx2
         rw [Prod.mk.injEq] at hp
         obtain ⟨hr2, hm2⟩ := hp
         subst hm2
         refine ⟨hr2.symm, hfog1.symm, hst1.symm, fun hni => ?_⟩
         have hgr1 : mf1.ground = mf.ground := by
           rw [hg1]
           cases hst : mf.state with
           | Initial mc => rw [hst] at hni; simp [GameState.isInitial] at hni
           | InProgress => rfl
           | Loss => rfl
           | Win => rfl
         have hgr2 : (match mf.state with
             | GameState.Initial _ => gen2 | _ => mf1.ground) = mf1.ground := by
           cases hst : mf.state with
           | Initial mc => rw [hst] at hni; simp [GameState.isInitial] at hni
           | InProgress => rfl
           | Loss => rfl
           | Win => rfl
         obtain ⟨ga, fa, sa⟩ := mf1
         simp only at hfog1 hst1 hgr2 ⊢
         rw [hgr2, hfog1, hst1])

/-- C6 (amended).  For the non-toggling actions — `Reveal`, `Mark` and
`Unmark` — executing the same command twice leaves the fog and the game
state exactly as after one execution, the second execution returns
`Failed`, and when the original state was not `Initial` the entire board
is unchanged by the second execution (in `Initial` state a failed repeat
re-runs the generator, so only the ground may differ). -/
theorem C6_idempotence_amended
    (mf : Minefield) (gen1 gen2 : Area GroundKind) (cmd : PendingCommand)
    (hact : cmd.action ≠ Action.ToggleMark)
    (hw1 : (match mf.state with
      | GameState.Initial _ => gen1 | _ => mf.ground).width = mf.fog.width)
    (hl1 : mf.fog.area.length ≤ (match mf.state with
      | GameState.Initial _ => gen1 | _ => mf.ground).area.length)
    {r1 : ExecutionResult} {mf1 : Minefield} {r2 : ExecutionResult} {mf2 : Minefield}
    (hx1 : mf.executeO gen1 cmd = some (r1, mf1))
    (hx2 : mf1.executeO gen2 cmd = some (r2, mf2)) :
    r2 = ExecutionResult.Failed ∧ mf2.fog = mf1.fog ∧ mf2.state = mf1.state ∧
    (mf.state.isInitial = false → mf2 = mf1) := by
  obtain ⟨hg1, hcase1⟩ := Minefield.executeO_spec hx1
  rcases hcase1 with ⟨hr1, _, _⟩ | ⟨hr1, hupd1⟩
  · rw [hr1] at hx1
    exact Minefield.executeO_failed_failed hx1 hx2
  · -- the first execution succeeded; find the dispatch that fired
    obtain ⟨loc, act⟩ := cmd
    simp only at hact hw1 hl1
    have hnotInit : mf.state.isInitial = false → mf1.state.isInitial = false := fun hni =>
      GameState.updateNew_not_initial hni hupd1
    -- helper closing a goal once the second execution is known to fail
    have finish2 : ∀ (g2 : Area GroundKind),
        some (ExecutionResult.Failed, (⟨g2, mf1.fog, mf1.state⟩ : Minefield)) =
          some (r2, mf2) →
        (mf.state.isInitial = false →
          (match mf1.state with | GameState.Initial _ => gen2 | _ => mf1.ground) = g2) →
        r2 = ExecutionResult.Failed ∧ mf2.fog = mf1.fog ∧ mf2.state = mf1.state ∧
          (mf.state.isInitial = false → mf2 = mf1) := by
      intro g2 hp hgm
      have hp2 := Option.some.inj hp
      rw [Prod.mk.injEq] at hp2
      obtain ⟨hr2, hm2⟩ := hp2
      subst hm2
      refine ⟨hr2.symm, rfl, rfl, fun hni => ?_⟩
      have hgr2 : g2 = mf1.ground := by
        have h1 := hgm hni
        have hsni := hnotInit hni
        cases hs1 : mf1.state with
        | Initial mc => rw [hs1] at hsni; simp [GameState.isInitial] at hsni
        | InProgress => rw [hs1] at h1; rw [← h1]
        | Loss => rw [hs1] at h1; rw [← h1]
        | Win => rw [hs1] at h1; rw [← h1]
      obtain ⟨ga, fa, sa⟩ := mf1
      simp only at hgr2 ⊢
      rw [hgr2]
  -- case analysis on the action and the fog cell under the command
    cases act with
    | ToggleMark => exact absurd rfl hact
    | Reveal =>
        cases hget : mf.fog.get loc with
        | none =>
            simp only [Minefield.executeO, hget] at hx1
            have hp := Option.some.inj hx1
            rw [Prod.mk.injEq] at hp
            exact absurd hp.1.symm hr1
        | some s =>
            cases s with
            | Hidden =>
                simp only [Minefield.executeO, hget] at hx1
                split at hx1
                · exact absurd hx1 (by simp)
                · rename_i p heq
                  have hp := Option.some.inj hx1
                  rw [Prod.mk.injEq] at hp
                  obtain ⟨_, hm1⟩ := hp
                  -- the revealed cell is no longer Hidden afterwards
                  obtain ⟨i, hti, hlt, _⟩ := Area.get_some_lt hget
                  have htg : loc.toIndex (match mf.state with
                      | GameState.Initial _ => gen1 | _ => mf.ground).width = some i := by
                    rw [hw1]; exact hti
                  have hltg : i < (match mf.state with
                      | GameState.Initial _ => gen1 | _ => mf.ground).area.length :=
                    lt_of_lt_of_le hlt hl1
                  have hgg : (match mf.state with
                      | GameState.Initial _ => gen1 | _ => mf.ground).get loc =
                      some ((match mf.state with
                        | GameState.Initial _ => gen1 | _ => mf.ground).area.get ⟨i, hltg⟩) := by
                    unfold Area.get
                    simp only [htg]
                    exact List.get?_eq_get hltg
                  have hstart := Minefield.revealLocation_get_start hget hgg
                  rcases hstart with hE | ⟨n, hR⟩
                  · subst hm1
                    simp only [Minefield.executeO, hE] at hx2
                    exact finish2 _ hx2 (fun hni => rfl)
                  · subst hm1
                    simp only [Minefield.executeO, hR] at hx2
                    exact finish2 _ hx2 (fun hni => rfl)
            | Marked =>
                simp only [Minefield.executeO, hget] at hx1
                have hp := Option.some.inj hx1
                rw [Prod.mk.injEq] at hp
                exact absurd hp.1.symm hr1
            | Revealed n =>
                simp only [Minefield.executeO, hget] at hx1
                have hp := Option.some.inj hx1
                rw [Prod.mk.injEq] at hp
                exact absurd hp.1.symm hr1
            | Exploded =>
                simp only [Minefield.executeO, hget] at hx1
                have hp := Option.some.inj hx1
                rw [Prod.mk.injEq] at hp
                exact absurd hp.1.symm hr1
    | Mark =>
        cases hget : mf.fog.get loc with
        | none =>
            simp only [Minefield.executeO, hget] at hx1
            have hp := Option.some.inj hx1
            rw [Prod.mk.injEq] at hp
            exact absurd hp.1.symm hr1
        | some s =>
            cases s with
            | Hidden =>
                simp only [Minefield.executeO, hget] at hx1
                split at hx1
                · exact absurd hx1 (by simp)
                · rename_i p heq
                  have hp := Option.some.inj hx1
                  rw [Prod.mk.injEq] at hp
                  obtain ⟨_, hm1⟩ := hp
                  have hget2 : (mf.fog.set loc State.Marked).get loc = some State.Marked :=
                    Area.get_set_self hget
                  subst hm1
                  simp only [Minefield.executeO, hget2] at hx2
                  exact finish2 _ hx2 (fun hni => rfl)
            | Marked =>
                simp only [Minefield.executeO, hget] at hx1
                have hp := Option.some.inj hx1
                rw [Prod.mk.injEq] at hp
                exact absurd hp.1.symm hr1
            | Revealed n =>
                simp only [Minefield.executeO, hget] at hx1
                have hp := Option.some.inj hx1
                rw [Prod.mk.injEq] at hp
                exact absurd hp.1.symm hr1
            | Exploded =>
                simp only [Minefield.executeO, hget] at hx1
                have hp := Option.some.inj hx1
                rw [Prod.mk.injEq] at hp
                exact absurd hp.1.symm hr1
    | Unmark =>
        cases hget : mf.fog.get loc with
        | none =>
            simp only [Minefield.executeO, hget] at hx1
            have hp := Option.some.inj hx1
            rw [Prod.mk.injEq] at hp
            exact absurd hp.1.symm hr1
        | some s =>
            cases s with
            | Marked =>
                simp only [Minefield.executeO, hget] at hx1
                split at hx1
                · exact absurd hx1 (by simp)
                · rename_i p heq
                  have hp := Option.some.inj hx1
                  rw [Prod.mk.injEq] at hp
                  obtain ⟨_, hm1⟩ := hp
                  have hget2 : (mf.fog.set loc State.Hidden).get loc = some State.Hidden :=
                    Area.get_set_self hget
                  subst hm1
                  simp only [Minefield.executeO, hget2] at hx2
                  exact finish2 _ hx2 (fun hni => rfl)
            | Hidden =>
                simp only [Minefield.executeO, hget] at hx1
                have hp := Option.some.inj hx1
                rw [Prod.mk.injEq] at hp
                exact absurd hp.1.symm hr1
            | Revealed n =>
                simp only [Minefield.executeO, hget] at hx1
                have hp := Option.some.inj hx1
                rw [Prod.mk.injEq] at hp
                exact absurd hp.1.symm hr1
            | Exploded =>
                simp only [Minefield.executeO, hget] at hx1
                have hp := Option.some.inj hx1
                rw [Prod.mk.injEq] at hp
                exact absurd hp.1.symm hr1

/-- C6 (witness): the amended idempotence applied to a concrete `Mark`
command executed twice on a running 2×1 board. -/
theorem C6_idempotence_amended_witness :
    (c6board.executeO dummyGround ⟨Location.mkN 0 0, Action.Mark⟩ =
        some (ExecutionResult.SuccessNoStateChange [Location.mkN 0 0], c6once)) ∧
    (c6once.executeO dummyGround ⟨Location.mkN 0 0, Action.Mark⟩ =
        some (ExecutionResult.Failed, c6once)) ∧
    (ExecutionResult.Failed = ExecutionResult.Failed ∧ c6once.fog = c6once.fog ∧
      c6once.state = c6once.state ∧
      (c6board.state.isInitial = false → c6once = c6once)) := by
  refine ⟨rfl, rfl, ?_⟩
  exact C6_idempotence_amended c6board dummyGround dummyGround
    ⟨Location.mkN 0 0, Action.Mark⟩ (by decide) rfl (by decide) rfl rfl

/-! ## C4 — revealed-cell invariant -/

lemma State.isHidden_eq {s : State} (h : s.isHidden = true) : s = State.Hidden := by
  cases s with
  | Hidden => rfl
  | Marked => simp [State.isHidden] at h
  | Revealed n => simp [State.isHidden] at h
  | Exploded => simp [State.isHidden] at h

lemma Area.get_mem {T : Type} {a : Area T} {l : Location} {v : T}
    (h : a.get l = some v) : v ∈ a.area := by
  obtain ⟨i, _, _, hgi⟩ := Area.get_some_lt h
  exact List.get?_mem hgi

lemma Area.get_new_eq {T : Type} [Inhabited T] {w h : ℕ} {l : Location} {v : T}
    (hg : (Area.new T w h).get l = some v) : v = default := by
  have := Area.get_mem hg
  exact List.eq_of_mem_replicate this

lemma ImprovedGenerator.buildGround_dims (p : Parameters) (nam : Location)
    (sample : Finset ℕ) :
    (ImprovedGenerator.buildGround p nam sample).width = p.width ∧
    (ImprovedGenerator.buildGround p nam sample).height = p.height ∧
    (ImprovedGenerator.buildGround p nam sample).area.length = p.width * p.height := by
  unfold ImprovedGenerator.buildGround
  have main : ∀ (lst : List ℕ) (a : Area GroundKind),
      a.width = p.width → a.height = p.height → a.area.length = p.width * p.height →
      ((lst.foldl (fun a index =>
          a.set (Location.fromIndex (ImprovedGenerator.skip
            (ImprovedGenerator.safeIndices nam p.width) index) p.width)
            GroundKind.Mine) a).width = p.width ∧
        (lst.foldl (fun a index =>
          a.set (Location.fromIndex (ImprovedGenerator.skip
            (ImprovedGenerator.safeIndices nam p.width) index) p.width)
            GroundKind.Mine) a).height = p.height ∧
        (lst.foldl (fun a index =>
          a.set (Location.fromIndex (ImprovedGenerator.skip
            (ImprovedGenerator.safeIndices nam p.width) index) p.width)
            GroundKind.Mine) a).area.length = p.width * p.height) := by
    intro lst
    induction lst with
    | nil => intro a h1 h2 h3; exact ⟨h1, h2, h3⟩
    | cons hd tl ih =>
        intro a h1 h2 h3
        simp only [List.foldl_cons]
        exact ih _ h1 h2 (by simpa [Area.set] using h3)
  exact main _ _ rfl rfl (by simp [Area.new])

lemma GenCond.dims {mf : Minefield} {cmd : PendingCommand} {gen : Area GroundKind}
    {mc : ℕ} (hgc : GenCond mf cmd gen) (hst : mf.state = GameState.Initial mc) :
    gen.width = mf.fog.width ∧ gen.height = mf.fog.height ∧
    gen.area.length = mf.fog.width * mf.fog.height := by
  obtain ⟨h9, sample, hsub, hcard, hgeq⟩ := hgc mc hst
  subst hgeq
  exact ImprovedGenerator.buildGround_dims _ _ _

/-- Transfer of the revealed-cell property across a write of a
non-Revealed value. -/
lemma revealedInv_set {ground : Area GroundKind} {fog : Area State}
    {loc : Location} {v x : State}
    (hbase : ∀ l n, fog.get l = some (State.Revealed n) →
      ground.get l = some GroundKind.Dirt ∧ n = Minefield.minesInProximity ground l)
    (hx0 : fog.get loc = some x) (hv : ∀ n, v ≠ State.Revealed n) :
    ∀ l n, (fog.set loc v).get l = some (State.Revealed n) →
      ground.get l = some GroundKind.Dirt ∧ n = Minefield.minesInProximity ground l := by
  intro l n hl
  rcases @Area.get_set_or _ _ _ l v _ hx0 with hsame | ⟨hhit, _, _⟩
  · rw [hsame] at hl; exact hbase l n hl
  · rw [hl] at hhit
    exact absurd (Option.some.inj hhit).symm (hv n)

/-- The BFS flood fill preserves the revealed-cell property: every cell
it reveals is Dirt and receives exactly its mine-neighbour count. -/
lemma Minefield.revealAux_revealedInv (ground : Area GroundKind) :
    ∀ (fuel : ℕ) (fog : Area State) (queue acc : List Location),
      (∀ l n, fog.get l = some (State.Revealed n) →
        ground.get l = some GroundKind.Dirt ∧ n = Minefield.minesInProximity ground l) →
      ∀ l n, (Minefield.revealAux ground fuel fog queue acc).1.get l =
          some (State.Revealed n) →
        ground.get l = some GroundKind.Dirt ∧ n = Minefield.minesInProximity ground l := by
  intro fuel
  induction fuel with
  | zero => intro fog queue acc hbase; exact hbase
  | succ m ih =>
      intro fog queue acc hbase
      cases queue with
      | nil => exact hbase
      | cons current rest =>
          unfold Minefield.revealAux
          cases hf : fog.get current with
          | none => simpa [hf] using ih fog rest acc hbase
          | some s =>
              cases s with
              | Hidden =>
                  cases hg : ground.get current with
                  | none => simpa [hf, hg] using ih fog rest acc hbase
                  | some gk =>
                      cases gk with
                      | Dirt =>
                          simp only [hf, hg]
                          apply ih
                          intro l n hl
                          rcases @Area.get_set_or _ _ _ l
                              (State.Revealed (Minefield.minesInProximity ground current))
                              _ hf with hsame | ⟨hhit, _, hleq⟩
                          · rw [hsame] at hl; exact hbase l n hl
                          · rw [hl] at hhit
                            have hv := Option.some.inj hhit
                            subst hleq
                            exact ⟨hg, (State.Revealed.inj hv)⟩
                      | Mine =>
                          simp only [hf, hg]
                          apply ih
                          exact revealedInv_set hbase hf (fun n => by simp)
              | Marked => simpa [hf] using ih fog rest acc hbase
              | Revealed k => simpa [hf] using ih fog rest acc hbase
              | Exploded => simpa [hf] using ih fog rest acc hbase

/-- Assembly of `MfInv` for the board produced by an `execute` step. -/
lemma MfInv.mkStep {mf : Minefield} {gen : Area GroundKind} {cmd : PendingCommand}
    {fog2 : Area State} {st2 : GameState}
    (ih : MfInv mf) (hgc : GenCond mf cmd gen)
    (hfw : fog2.width = mf.fog.width) (hfh : fog2.height = mf.fog.height)
    (hfl : fog2.area.length = mf.fog.area.length)
    (hrev : RevealedInv ⟨(match mf.state with
      | GameState.Initial _ => gen | _ => mf.ground), fog2, st2⟩)
    (hinit : st2.isInitial = true → ∀ s ∈ fog2.area, s = State.Hidden) :
    MfInv ⟨(match mf.state with
      | GameState.Initial _ => gen | _ => mf.ground), fog2, st2⟩ := by
  obtain ⟨_, ihG, ihGWF, ihFWF, _⟩ := ih
  refine ⟨hinit, ?_, ?_, ?_, hrev⟩
  · cases hst : mf.state with
    | Initial mc =>
        right
        obtain ⟨hw, hh, hl⟩ := GenCond.dims hgc hst
        simp only
        rw [hfw, hfh, hfl, ihFWF]
        exact ⟨hw, hh, hl⟩
    | InProgress =>
        simp only
        rcases ihG with hempty | ⟨hw, hh, hl⟩
        · left; exact hempty
        · right; rw [hfw, hfh, hfl]; exact ⟨hw, hh, hl⟩
    | Loss =>
        simp only
        rcases ihG with hempty | ⟨hw, hh, hl⟩
        · left; exact hempty
        · right; rw [hfw, hfh, hfl]; exact ⟨hw, hh, hl⟩
    | Win =>
        simp only
        rcases ihG with hempty | ⟨hw, hh, hl⟩
        · left; exact hempty
        · right; rw [hfw, hfh, hfl]; exact ⟨hw, hh, hl⟩
  · cases hst : mf.state with
    | Initial mc =>
        obtain ⟨hw, hh, hl⟩ := GenCond.dims hgc hst
        simp only
        rw [hw, hh, hl]
    | InProgress => exact ihGWF
    | Loss => exact ihGWF
    | Win => exact ihGWF
  · simp only
    rw [hfw, hfh, hfl]
    exact ihFWF

/-- The base of the revealed-cell property under an `Initial` state:
the fog is all Hidden, so the property holds for any ground. -/
lemma revealedInv_base {mf : Minefield} {gen : Area GroundKind}
    (ih : MfInv mf) :
    ∀ l n, mf.fog.get l = some (State.Revealed n) →
      (match mf.state with | GameState.Initial _ => gen | _ => mf.ground).get l =
        some GroundKind.Dirt ∧
      n = Minefield.minesInProximity
        (match mf.state with | GameState.Initial _ => gen | _ => mf.ground) l := by
  obtain ⟨ihInit, _, _, _, ihRev⟩ := ih
  intro l n hl
  cases hst : mf.state with
  | Initial mc =>
      have hmem := Area.get_mem hl
      have := ihInit (by rw [hst]; rfl) _ hmem
      simp at this
  | InProgress => exact ihRev l n hl
  | Loss => exact ihRev l n hl
  | Win => exact ihRev l n hl

/-- Every reachable board satisfies the inductive invariant. -/
lemma Reachable.inv {mf : Minefield} (h : Reachable mf) : MfInv mf := by
  induction h with
  | base p =>
      refine ⟨?_, Or.inl rfl, rfl, ?_, ?_⟩
      · intro _ s hs
        exact List.eq_of_mem_replicate hs
      · simp [Minefield.new, Area.new]
      · intro l n hl
        have := Area.get_new_eq hl
        simp [default] at this
  | @step mf gen cmd r mf2 _ hgc hx ih =>
      simp only [Minefield.executeO] at hx
      split at hx
      · -- Reveal on Hidden
        rename_i ha hf
        split at hx
        · exact absurd hx (by simp)
        · rename_i p heq
          have hp := Option.some.inj hx
          rw [Prod.mk.injEq] at hp
          obtain ⟨_, hm⟩ := hp
          subst hm
          obtain ⟨n0, hn0, hp0⟩ := Option.map_eq_some'.mp heq
          subst hp0
          have hdims := Minefield.revealAux_dims
            (match mf.state with | GameState.Initial _ => gen | _ => mf.ground)
            (9 * mf.fog.area.length + 1) mf.fog [cmd.location] []
          refine MfInv.mkStep ih hgc hdims.1 hdims.2.1 hdims.2.2 ?_ ?_
          · intro l n hl
            exact Minefield.revealAux_revealedInv _ _ _ _ _ (revealedInv_base ih) l n hl
          · intro hi2
            obtain ⟨_, hall⟩ := GameState.updateNew_initial hn0 hi2
            intro s hs
            have hsH := List.all_eq_true.mp hall s hs
            exact State.isHidden_eq hsH
      · -- Mark on Hidden
        rename_i ha hf
        split at hx
        · exact absurd hx (by simp)
        · rename_i p heq
          have hp := Option.some.inj hx
          rw [Prod.mk.injEq] at hp
          obtain ⟨_, hm⟩ := hp
          subst hm
          obtain ⟨n0, hn0, hp0⟩ := Option.map_eq_some'.mp heq
          subst hp0
          refine MfInv.mkStep ih hgc rfl rfl (by simp [Area.set]) ?_ ?_
          · intro l n hl
            exact revealedInv_set (revealedInv_base ih) hf (fun n => by simp) l n hl
          · intro hi2
            obtain ⟨_, hall⟩ := GameState.updateNew_initial hn0 hi2
            intro s hs
            exact State.isHidden_eq (List.all_eq_true.mp hall s hs)
      · -- ToggleMark on Hidden
        rename_i ha hf
        split at hx
        · exact absurd hx (by simp)
        · rename_i p heq
          have hp := Option.some.inj hx
          rw [Prod.mk.injEq] at hp
          obtain ⟨_, hm⟩ := hp
          subst hm
          obtain ⟨n0, hn0, hp0⟩ := Option.map_eq_some'.mp heq
          subst hp0
          refine MfInv.mkStep ih hgc rfl rfl (by simp [Area.set]) ?_ ?_
          · intro l n hl
            exact revealedInv_set (revealedInv_base ih) hf (fun n => by simp) l n hl
          · intro hi2
            obtain ⟨_, hall⟩ := GameState.updateNew_initial hn0 hi2
            intro s hs
            exact State.isHidden_eq (List.all_eq_true.mp hall s hs)
      · -- Unmark on Marked
        rename_i ha hf
        split at hx
        · exact absurd hx (by simp)
        · rename_i p heq
          have hp := Option.some.inj hx
          rw [Prod.mk.injEq] at hp
          obtain ⟨_, hm⟩ := hp
          subst hm
          obtain ⟨n0, hn0, hp0⟩ := Option.map_eq_some'.mp heq
          subst hp0
          refine MfInv.mkStep ih hgc rfl rfl (by simp [Area.set]) ?_ ?_
          · intro l n hl
            exact revealedInv_set (revealedInv_base ih) hf (fun n => by simp) l n hl
          · intro hi2
            obtain ⟨_, hall⟩ := GameState.updateNew_initial hn0 hi2
            intro s hs
            exact State.isHidden_eq (List.all_eq_true.mp hall s hs)
      · -- ToggleMark on Marked
        rename_i ha hf
        split at hx
        · exact absurd hx (by simp)
        · rename_i p heq
          have hp := Option.some.inj hx
          rw [Prod.mk.injEq] at hp
          obtain ⟨_, hm⟩ := hp
          subst hm
          obtain ⟨n0, hn0, hp0⟩ := Option.map_eq_some'.mp heq
          subst hp0
          refine MfInv.mkStep ih hgc rfl rfl (by simp [Area.set]) ?_ ?_
          · intro l n hl
            exact revealedInv_set (revealedInv_base ih) hf (fun n => by simp) l n hl
          · intro hi2
            obtain ⟨_, hall⟩ := GameState.updateNew_initial hn0 hi2
            intro s hs
            exact State.isHidden_eq (List.all_eq_true.mp hall s hs)
      · -- Failed
        have hp := Option.some.inj hx
        rw [Prod.mk.injEq] at hp
        obtain ⟨_, hm⟩ := hp
        subst hm
        refine MfInv.mkStep ih hgc rfl rfl rfl ?_ ?_
        · intro l n hl
          exact revealedInv_base ih l n hl
        · intro hi2
          obtain ⟨ihInit, _, _, _, _⟩ := ih
          exact ihInit hi2

/-- C4.  On every board reachable from `Initial` by `execute` commands,
a cell revealed as `n` sits on Dirt and `n` is exactly the number of its
8 Moore neighbours whose ground is a Mine. -/
theorem C4_revealed_invariant (mf : Minefield) (h : Reachable mf) :
    ∀ l n, mf.fog.get l = some (State.Revealed n) →
      mf.ground.get l = some GroundKind.Dirt ∧
      n = Minefield.minesInProximity mf.ground l :=
  (Reachable.inv h).2.2.2.2

lemma c1s0_genCondReveal : GenCond c1s0 ⟨Location.mkN 12 0, Action.Reveal⟩ c1gen := by
  intro mc hmc
  have hmc1 : mc = 1 := by
    simp [c1s0, Minefield.new, GameState.new] at hmc
    omega
  subst hmc1
  exact ⟨by decide, {0}, by decide, by decide, rfl⟩

lemma c1w_reachable : Reachable c1w :=
  (Reachable.base ⟨13, 1, 1⟩).stepAuto c1s0_genCondReveal (by decide)

/-- C4 (witness): the invariant applied to a concrete reachable board on
which cell (1,0) is revealed as `1` next to the mine at (0,0). -/
theorem C4_revealed_invariant_witness :
    Reachable c1w ∧
    (∀ l n, c1w.fog.get l = some (State.Revealed n) →
      c1w.ground.get l = some GroundKind.Dirt ∧
      n = Minefield.minesInProximity c1w.ground l) ∧
    c1w.fog.get (Location.mkN 1 0) = some (State.Revealed 1) :=
  ⟨c1w_reachable, C4_revealed_invariant c1w c1w_reachable, by decide⟩

/-! ## C7 — solver termination -/

namespace Solver

lemma addAll_cons (base : List Fact) (f : Fact) (tl : List Fact) :
    addAll base (f :: tl) =
      addAll (if base.any (fun g => g.key = f.key) then base else base ++ [f]) tl := rfl

lemma addAll_append : ∀ (new base : List Fact), ∃ ext, addAll base new = base ++ ext ∧
    ∀ f ∈ ext, f ∈ new := by
  intro new
  induction new with
  | nil => intro base; exact ⟨[], by simp [addAll], by simp⟩
  | cons f tl ih =>
      intro base
      rw [addAll_cons]
      by_cases hp : base.any (fun g => g.key = f.key)
      · rw [if_pos hp]
        obtain ⟨ext, he, hm⟩ := ih base
        exact ⟨ext, he, fun g hg => List.mem_cons_of_mem f (hm g hg)⟩
      · rw [if_neg hp]
        obtain ⟨ext, he, hm⟩ := ih (base ++ [f])
        refine ⟨f :: ext, ?_, ?_⟩
        · rw [he, List.append_assoc]
          rfl
        · intro g hg
          rcases List.mem_cons.mp hg with h | hg2
          · rw [h]; exact List.mem_cons_self _ _
          · exact List.mem_cons_of_mem _ (hm g hg2)

lemma mem_addAll {base new : List Fact} {f : Fact} (h : f ∈ addAll base new) :
    f ∈ base ∨ f ∈ new := by
  obtain ⟨ext, he, hm⟩ := addAll_append new base
  rw [he] at h
  rcases List.mem_append.mp h with h1 | h2
  · exact Or.inl h1
  · exact Or.inr (hm f h2)

lemma mem_addAll_left {base new : List Fact} {f : Fact} (h : f ∈ base) :
    f ∈ addAll base new := by
  obtain ⟨ext, he, _⟩ := addAll_append new base
  rw [he]
  exact List.mem_append.mpr (Or.inl h)

lemma addAll_nodupKeys : ∀ (new base : List Fact),
    (base.map Fact.key).Nodup → ((addAll base new).map Fact.key).Nodup := by
  intro new
  induction new with
  | nil => intro base hb; simpa [addAll] using hb
  | cons f tl ih =>
      intro base hb
      rw [addAll_cons]
      by_cases hp : base.any (fun g => g.key = f.key)
      · rw [if_pos hp]; exact ih base hb
      · rw [if_neg hp]
        apply ih
        rw [List.map_append]
        rw [List.nodup_append]
        refine ⟨hb, by simp, ?_⟩
        intro k hk
        simp only [List.map_cons, List.map_nil, List.mem_singleton]
        intro hkey
        obtain ⟨g, hg, hgk⟩ := List.mem_map.mp hk
        rw [List.any_eq_true] at hp
        subst hkey
        exact hp ⟨g, hg, by simp [hgk]⟩

lemma length_addAll_ge (base new : List Fact) :
    base.length ≤ (addAll base new).length := by
  obtain ⟨ext, he, _⟩ := addAll_append new base
  rw [he, List.length_append]
  omega

lemma addAll_eq_of_length (base new : List Fact)
    (h : (addAll base new).length ≤ base.length) : addAll base new = base := by
  obtain ⟨ext, he, _⟩ := addAll_append new base
  rw [he] at h ⊢
  rw [List.length_append] at h
  have : ext = [] := List.length_eq_zero.mp (by omega)
  rw [this, List.append_nil]

lemma le_foldl_max : ∀ (lst : List Fact) (acc : ℕ),
    acc ≤ lst.foldl (fun a f => Nat.max a f.count) acc := by
  intro lst
  induction lst with
  | nil => intro acc; exact le_refl acc
  | cons f tl ih =>
      intro acc
      exact le_trans (Nat.le_max_left acc f.count) (ih (Nat.max acc f.count))

lemma count_le_foldl_max : ∀ (lst : List Fact) (acc : ℕ) (f : Fact), f ∈ lst →
    f.count ≤ lst.foldl (fun a g => Nat.max a g.count) acc := by
  intro lst
  induction lst with
  | nil => intro acc f h; simp at h
  | cons g tl ih =>
      intro acc f h
      rcases List.mem_cons.mp h with rfl | h2
      · exact le_trans (Nat.le_max_right acc f.count) (le_foldl_max tl _)
      · exact ih _ f h2

lemma count_le_maxCount {s : Solver} {f : Fact} (h : f ∈ s.facts) :
    f.count ≤ maxCount s := count_le_foldl_max s.facts 0 f h

lemma subset_foldl_union : ∀ (lst : List Fact) (acc : Finset Location),
    acc ⊆ lst.foldl (fun a f => a ∪ f.proximity) acc := by
  intro lst
  induction lst with
  | nil => intro acc; exact Finset.Subset.refl acc
  | cons f tl ih =>
      intro acc
      exact Finset.Subset.trans (Finset.subset_union_left) (ih (acc ∪ f.proximity))

lemma prox_subset_foldl_union : ∀ (lst : List Fact) (acc : Finset Location) (f : Fact),
    f ∈ lst → f.proximity ⊆ lst.foldl (fun a g => a ∪ g.proximity) acc := by
  intro lst
  induction lst with
  | nil => intro acc f h; simp at h
  | cons g tl ih =>
      intro acc f h
      rcases List.mem_cons.mp h with rfl | h2
      · exact Finset.Subset.trans (Finset.subset_union_right) (subset_foldl_union tl _)
      · exact ih _ f h2

lemma prox_subset_unionProx {s : Solver} {f : Fact} (h : f ∈ s.facts) :
    f.proximity ⊆ unionProx s := prox_subset_foldl_union s.facts ∅ f h

lemma mem_foldl_union : ∀ (lst : List Fact) (acc : Finset Location) (z : Location),
    (z ∈ lst.foldl (fun a g => a ∪ g.proximity) acc ↔
      z ∈ acc ∨ ∃ f ∈ lst, z ∈ f.proximity) := by
  intro lst
  induction lst with
  | nil => intro acc z; simp
  | cons g tl ih =>
      intro acc z
      rw [List.foldl_cons, ih]
      simp only [Finset.mem_union, List.mem_cons]
      constructor
      · rintro ((h | h) | ⟨f, hf, hz⟩)
        · exact Or.inl h
        · exact Or.inr ⟨g, Or.inl rfl, h⟩
        · exact Or.inr ⟨f, Or.inr hf, hz⟩
      · rintro (h | ⟨f, (rfl | hf), hz⟩)
        · exact Or.inl (Or.inl h)
        · exact Or.inl (Or.inr hz)
        · exact Or.inr ⟨f, hf, hz⟩

lemma prevIteration_subset {s : Solver} {f : Fact} (h : f ∈ s.prevIteration) :
    f ∈ s.facts := (List.mem_filter.mp h).1

lemma pairs_mem {s : Solver} {p : Fact × Fact} (h : p ∈ s.pairs) :
    p.1 ∈ s.facts ∧ p.2 ∈ s.facts := by
  unfold pairs at h
  obtain ⟨l, hl, hr⟩ := List.mem_flatMap.mp h
  obtain ⟨r, hrm, hpe⟩ := List.mem_map.mp hr
  subst hpe
  exact ⟨prevIteration_subset hl, hrm⟩

end Solver

namespace Solver

lemma step_facts_eq (s : Solver) : (step s).facts =
    addAll s.facts
      (minAllToExact ⟨s.facts, s.iteration + 1⟩ ++ maxZeroToExact ⟨s.facts, s.iteration + 1⟩ ++
        exactToMin ⟨s.facts, s.iteration + 1⟩ ++ exactToMax ⟨s.facts, s.iteration + 1⟩ ++
        minWithinMax ⟨s.facts, s.iteration + 1⟩ ++ maxIntersectsMin ⟨s.facts, s.iteration + 1⟩) := rfl

lemma step_iteration_eq (s : Solver) : (step s).iteration = s.iteration + 1 := rfl

lemma asMinMax_cases {l r a b : Fact} (h : asMinMax l r = some (a, b)) :
    (a = l ∧ b = r) ∨ (a = r ∧ b = l) := by
  cases hlk : l.kind <;> cases hrk : r.kind <;>
    simp only [asMinMax, hlk, hrk, Option.some.injEq, Prod.mk.injEq, reduceCtorEq] at h
  · exact Or.inl ⟨h.1.symm, h.2.symm⟩
  · exact Or.inr ⟨h.1.symm, h.2.symm⟩

lemma mem_derived {s : Solver} {f : Fact}
    (h : f ∈ minAllToExact s ++ maxZeroToExact s ++ exactToMin s ++ exactToMax s ++
      minWithinMax s ++ maxIntersectsMin s) :
    ∃ g ∈ s.facts, f.count ≤ g.count ∧ f.proximity ⊆ g.proximity ∧
      f.iteration = s.iteration := by
  simp only [List.mem_append] at h
  rcases h with ((((h | h) | h) | h) | h) | h
  · obtain ⟨g, hg, rfl⟩ := List.mem_map.mp h
    exact ⟨g, prevIteration_subset (List.mem_filter.mp hg).1, le_refl _,
      Finset.Subset.refl _, rfl⟩
  · obtain ⟨g, hg, rfl⟩ := List.mem_map.mp h
    exact ⟨g, prevIteration_subset (List.mem_filter.mp hg).1, le_refl _,
      Finset.Subset.refl _, rfl⟩
  · obtain ⟨g, hg, rfl⟩ := List.mem_map.mp h
    exact ⟨g, prevIteration_subset (List.mem_filter.mp hg).1, le_refl _,
      Finset.Subset.refl _, rfl⟩
  · obtain ⟨g, hg, rfl⟩ := List.mem_map.mp h
    exact ⟨g, prevIteration_subset (List.mem_filter.mp hg).1, le_refl _,
      Finset.Subset.refl _, rfl⟩
  · obtain ⟨p, hp, he⟩ := List.mem_filterMap.mp h
    obtain ⟨q, hq, he2⟩ := Option.bind_eq_some.mp he
    obtain ⟨q1, q2⟩ := q
    split at he2
    · obtain rfl := Option.some.inj he2
      have hmem := pairs_mem hp
      have h2 : q2 ∈ s.facts := by
        rcases asMinMax_cases hq with ⟨_, rfl⟩ | ⟨_, rfl⟩
        · exact hmem.2
        · exact hmem.1
      exact ⟨q2, h2, Nat.sub_le _ _, Finset.sdiff_subset, rfl⟩
    · exact absurd he2 (by simp)
  · obtain ⟨p, hp, he⟩ := List.mem_filterMap.mp h
    obtain ⟨q, hq, he2⟩ := Option.bind_eq_some.mp he
    obtain ⟨q1, q2⟩ := q
    simp only at he2
    split at he2
    · exact absurd he2 (by simp)
    · split at he2
      · exact absurd he2 (by simp)
      · obtain rfl := Option.some.inj he2
        have hmem := pairs_mem hp
        have h1 : q1 ∈ s.facts := by
          rcases asMinMax_cases hq with ⟨rfl, _⟩ | ⟨rfl, _⟩
          · exact hmem.1
          · exact hmem.2
        exact ⟨q1, h1, Nat.sub_le _ _, Finset.sdiff_subset, rfl⟩

lemma step_good {s0 s : Solver}
    (hg : ∀ f ∈ s.facts, f.count ≤ maxCount s0 ∧ f.proximity ⊆ unionProx s0 ∧
      f.iteration ≤ s.iteration) :
    ∀ f ∈ (step s).facts, f.count ≤ maxCount s0 ∧ f.proximity ⊆ unionProx s0 ∧
      f.iteration ≤ (step s).iteration := by
  intro f hf
  rw [step_facts_eq] at hf
  rw [step_iteration_eq]
  rcases mem_addAll hf with h | h
  · obtain ⟨h1, h2, h3⟩ := hg f h
    exact ⟨h1, h2, Nat.le_succ_of_le h3⟩
  · obtain ⟨g, hgm, hc, hp, hi⟩ := mem_derived h
    obtain ⟨h1, h2, _⟩ := hg g hgm
    exact ⟨le_trans hc h1, Finset.Subset.trans hp h2, le_of_eq hi⟩

lemma length_le_bound {s0 s : Solver}
    (hc : ∀ f ∈ s.facts, f.count ≤ maxCount s0 ∧ f.proximity ⊆ unionProx s0)
    (hn : (s.facts.map Fact.key).Nodup) :
    s.facts.length ≤ 3 * (maxCount s0 + 1) * 2 ^ (unionProx s0).card := by
  have h2 : (s.facts.map Fact.key).toFinset.card = (s.facts.map Fact.key).length :=
    List.toFinset_card_of_nodup hn
  have h3 : (s.facts.map Fact.key).toFinset ⊆
      ({Constraint.Min, Constraint.Exact, Constraint.Max} : Finset Constraint) ×ˢ
        (Finset.range (maxCount s0 + 1) ×ˢ (unionProx s0).powerset) := by
    intro k hk
    obtain ⟨f, hf, rfl⟩ := List.mem_map.mp (List.mem_toFinset.mp hk)
    obtain ⟨hcnt, hpx⟩ := hc f hf
    refine Finset.mem_product.mpr ⟨?_, Finset.mem_product.mpr ⟨?_, ?_⟩⟩
    · show f.kind ∈ ({Constraint.Min, Constraint.Exact, Constraint.Max} : Finset Constraint)
      cases f.kind <;> decide
    · exact Finset.mem_range.mpr (Nat.lt_succ_of_le hcnt)
    · exact Finset.mem_powerset.mpr hpx
  have h4 := Finset.card_le_card h3
  rw [h2, List.length_map] at h4
  have h5 : (({Constraint.Min, Constraint.Exact, Constraint.Max} : Finset Constraint) ×ˢ
      (Finset.range (maxCount s0 + 1) ×ˢ (unionProx s0).powerset)).card =
      3 * (maxCount s0 + 1) * 2 ^ (unionProx s0).card := by
    rw [Finset.card_product, Finset.card_product, Finset.card_range, Finset.card_powerset]
    rw [show ({Constraint.Min, Constraint.Exact, Constraint.Max} :
      Finset Constraint).card = 3 by decide]
    ring
  omega

lemma step_facts_of_tags_lt {s : Solver}
    (htags : ∀ f ∈ s.facts, f.iteration < s.iteration) : (step s).facts = s.facts := by
  have hprev : prevIteration ⟨s.facts, s.iteration + 1⟩ = [] := by
    unfold prevIteration
    simp only [List.filter_eq_nil]
    intro f hf
    have := htags f hf
    simp only [decide_eq_true_eq]
    omega
  have h1 : minAllToExact ⟨s.facts, s.iteration + 1⟩ = [] := by
    unfold minAllToExact
    rw [hprev]
    rfl
  have h2 : maxZeroToExact ⟨s.facts, s.iteration + 1⟩ = [] := by
    unfold maxZeroToExact
    rw [hprev]
    rfl
  have h3 : exactToMin ⟨s.facts, s.iteration + 1⟩ = [] := by
    unfold exactToMin
    rw [hprev]
    rfl
  have h4 : exactToMax ⟨s.facts, s.iteration + 1⟩ = [] := by
    unfold exactToMax
    rw [hprev]
    rfl
  have hp : pairs ⟨s.facts, s.iteration + 1⟩ = [] := by
    unfold pairs
    rw [hprev]
    rfl
  have h5 : minWithinMax ⟨s.facts, s.iteration + 1⟩ = [] := by
    unfold minWithinMax
    rw [hp]
    rfl
  have h6 : maxIntersectsMin ⟨s.facts, s.iteration + 1⟩ = [] := by
    unfold maxIntersectsMin
    rw [hp]
    rfl
  rw [step_facts_eq, h1, h2, h3, h4, h5, h6]
  rfl

lemma runFuel_fix (s0 : Solver) : ∀ (fuel : ℕ) (s : Solver),
    (∀ f ∈ s.facts, f.count ≤ maxCount s0 ∧ f.proximity ⊆ unionProx s0 ∧
      f.iteration ≤ s.iteration) →
    (s.facts.map Fact.key).Nodup →
    3 * (maxCount s0 + 1) * 2 ^ (unionProx s0).card - s.facts.length < fuel →
    (step (runFuel fuel s)).facts = (runFuel fuel s).facts := by
  intro fuel
  induction fuel with
  | zero => intro s _ _ hfu; exact absurd hfu (Nat.not_lt_zero _)
  | succ fuel ih =>
      intro s hgood hnodup hfu
      simp only [runFuel]
      by_cases hlt : s.facts.length < (step s).facts.length
      · rw [if_pos hlt]
        have hnodup2 : ((step s).facts.map Fact.key).Nodup := by
          rw [step_facts_eq]
          exact addAll_nodupKeys _ _ hnodup
        apply ih (step s) (step_good hgood) hnodup2
        have hle := length_le_bound
          (fun f hf => ⟨(step_good hgood f hf).1, (step_good hgood f hf).2.1⟩) hnodup2
        omega
      · rw [if_neg hlt]
        push_neg at hlt
        have hfix : (step s).facts = s.facts := by
          rw [step_facts_eq] at hlt ⊢
          exact addAll_eq_of_length _ _ hlt
        apply step_facts_of_tags_lt
        intro f hf
        rw [step_iteration_eq]
        rw [hfix] at hf
        exact Nat.lt_succ_of_le (hgood f hf).2.2

lemma keys_mono (s : Solver) : keys s ⊆ keys (step s) := by
  intro k hk
  unfold keys at hk ⊢
  obtain ⟨f, hf, rfl⟩ := List.mem_map.mp (List.mem_toFinset.mp hk)
  refine List.mem_toFinset.mpr (List.mem_map.mpr ⟨f, ?_, rfl⟩)
  rw [step_facts_eq]
  exact mem_addAll_left hf

lemma initState_good (mf : Minefield) :
    ∀ f ∈ (initState mf).facts, f.count ≤ maxCount (initState mf) ∧
      f.proximity ⊆ unionProx (initState mf) ∧ f.iteration ≤ (initState mf).iteration := by
  intro f hf
  refine ⟨count_le_maxCount hf, prox_subset_unionProx hf, ?_⟩
  rcases mem_addAll hf with h | h
  · simp at h
  · obtain ⟨p, _, he⟩ := List.mem_filterMap.mp h
    obtain ⟨n, _, he2⟩ := Option.map_eq_some'.mp he
    rw [← he2]
    exact le_refl _

lemma initState_nodupKeys (mf : Minefield) :
    ((initState mf).facts.map Fact.key).Nodup :=
  addAll_nodupKeys _ [] (by simp)

end Solver

/-- C7: the solver's saturation loop is monotone — every pass only adds
fact keys — and terminates: the fuelled `run` (whose fuel is the finite
key-space bound `factBound`) reaches a true fixed point, i.e. one more
pass over the result of `run` derives no new fact.  This holds for the
seeded repository of every minefield. -/
theorem C7_solver_termination (mf : Minefield) :
    (∀ n : ℕ, Solver.keys (Solver.step^[n] (Solver.initState mf)) ⊆
      Solver.keys (Solver.step^[n + 1] (Solver.initState mf))) ∧
    (Solver.step (Solver.run (Solver.initState mf))).facts =
      (Solver.run (Solver.initState mf)).facts := by
  constructor
  · intro n
    rw [Function.iterate_succ_apply']
    exact Solver.keys_mono _
  · unfold Solver.run Solver.factBound
    apply Solver.runFuel_fix (Solver.initState mf) _ (Solver.initState mf)
      (Solver.initState_good mf) (Solver.initState_nodupKeys mf)
    omega

/-! ### C3 — generator lemmas -/

namespace ImprovedGenerator

lemma adjCount_le_card (S : Finset ℕ) (a : ℕ) : adjCount S a ≤ S.card :=
  Finset.card_filter_le _ _

lemma adjCount_mono (S : Finset ℕ) {a b : ℕ} (h : a ≤ b) : adjCount S a ≤ adjCount S b := by
  apply Finset.card_le_card
  intro s hs
  obtain ⟨h1, h2⟩ := Finset.mem_filter.mp hs
  exact Finset.mem_filter.mpr ⟨h1, le_trans h2 h⟩

lemma skipAux_spec (S : Finset ℕ) (i : ℕ) : ∀ (fuel a : ℕ),
    a ≤ i + adjCount S a →
    (∀ y, y < a → i + adjCount S y ≠ y) →
    S.card + i - a < fuel →
    (skipAux S i fuel a = i + adjCount S (skipAux S i fuel a) ∧
      (∀ y, y < skipAux S i fuel a → i + adjCount S y ≠ y) ∧
      ∀ y, i + adjCount S y ≤ y → a ≤ y → skipAux S i fuel a ≤ y) := by
  intro fuel
  induction fuel with
  | zero => intro a _ _ hfu; exact absurd hfu (by omega)
  | succ fuel ih =>
      intro a hinv hnofix hfu
      simp only [skipAux]
      by_cases hfix : i + adjCount S a = a
      · rw [if_pos hfix]
        exact ⟨hfix.symm, hnofix, fun y _ hay => hay⟩
      · rw [if_neg hfix]
        have hlt : a < i + adjCount S a := lt_of_le_of_ne hinv (fun h => hfix h.symm)
        have h1 : i + adjCount S a ≤ i + adjCount S (i + adjCount S a) := by
          have := adjCount_mono S (le_of_lt hlt)
          omega
        have h2 : ∀ y, y < i + adjCount S a → i + adjCount S y ≠ y := by
          intro y hy
          rcases Nat.lt_or_ge y a with hya | hya
          · exact hnofix y hya
          · intro hyfix
            have := adjCount_mono S hya
            omega
        have h3 : S.card + i - (i + adjCount S a) < fuel := by
          have := adjCount_le_card S a
          omega
        obtain ⟨hf, hn, hu⟩ := ih (i + adjCount S a) h1 h2 h3
        refine ⟨hf, hn, fun y hy hay => hu y hy ?_⟩
        have := adjCount_mono S hay
        omega

lemma skip_spec (S : Finset ℕ) (i : ℕ) :
    skip S i = i + adjCount S (skip S i) ∧
      (∀ y, y < skip S i → i + adjCount S y ≠ y) ∧
      ∀ y, i + adjCount S y ≤ y → i ≤ y → skip S i ≤ y := by
  unfold skip
  apply skipAux_spec S i (2 * S.card + 2) i (Nat.le_add_right i _)
  · intro y hy h
    omega
  · omega

lemma skip_le_add (S : Finset ℕ) (i : ℕ) : skip S i ≤ i + S.card := by
  have h1 := (skip_spec S i).1
  have h2 := adjCount_le_card S (skip S i)
  omega

lemma skip_not_mem (S : Finset ℕ) (i : ℕ) : skip S i ∉ S := by
  intro hmem
  obtain ⟨hfix, hnofix, -⟩ := skip_spec S i
  have h1 : 1 ≤ adjCount S (skip S i) :=
    Finset.card_pos.mpr ⟨skip S i, Finset.mem_filter.mpr ⟨hmem, le_refl _⟩⟩
  have hr1 : 1 ≤ skip S i := by omega
  have hcnt : adjCount S (skip S i) = adjCount S (skip S i - 1) + 1 := by
    unfold adjCount
    have hset : S.filter (fun p => p ≤ skip S i) =
        insert (skip S i) (S.filter (fun p => p ≤ skip S i - 1)) := by
      ext s
      simp only [Finset.mem_filter, Finset.mem_insert]
      constructor
      · rintro ⟨hs, hle⟩
        rcases Nat.lt_or_ge s (skip S i) with hlt | hge
        · exact Or.inr ⟨hs, by omega⟩
        · exact Or.inl (by omega)
      · rintro (rfl | ⟨hs, hle⟩)
        · exact ⟨hmem, le_refl _⟩
        · exact ⟨hs, by omega⟩
    rw [hset, Finset.card_insert_of_not_mem]
    simp only [Finset.mem_filter, not_and]
    intro _
    omega
  exact hnofix (skip S i - 1) (by omega) (by omega)

lemma skip_lt_skip (S : Finset ℕ) {i1 i2 : ℕ} (h : i1 < i2) : skip S i1 < skip S i2 := by
  obtain ⟨hfix1, -, hle1⟩ := skip_spec S i1
  obtain ⟨hfix2, -, -⟩ := skip_spec S i2
  have hpre : i1 + adjCount S (skip S i2) ≤ skip S i2 := by omega
  have hle : skip S i1 ≤ skip S i2 := hle1 (skip S i2) hpre (by omega)
  rcases Nat.eq_or_lt_of_le hle with heq | hlt
  · rw [heq] at hfix1
    omega
  · exact hlt

lemma safeIndices_card_le (notAMine : Location) (w : ℕ) :
    (safeIndices notAMine w).card ≤ 9 := by
  unfold safeIndices
  refine le_trans (List.toFinset_card_le _) (le_trans (List.length_filterMap_le _ _) ?_)
  simp [Location.neighbours]

end ImprovedGenerator

lemma Location.toIndex_fromIndex {j w : ℕ} (hw : 0 < w) :
    (Location.fromIndex j w).toIndex w = some j := by
  unfold Location.fromIndex Location.toIndex
  simp only
  rw [if_pos (Nat.mod_lt _ hw)]
  simp only [Bounded.mul, Bounded.add, Bounded.toOption, Option.some.injEq]
  rw [Nat.mul_comm]
  exact Nat.div_add_mod j w

lemma Area.foldl_set_spec (w h : ℕ) (hw : 0 < w) :
    ∀ (js : List ℕ) (init : List GroundKind),
    (js.foldl (fun (a : Area GroundKind) j =>
        a.set (Location.fromIndex j w) GroundKind.Mine) ⟨init, w, h⟩) =
      ⟨js.foldl (fun l j => l.set j GroundKind.Mine) init, w, h⟩ := by
  intro js
  induction js with
  | nil => intro init; rfl
  | cons j tl ih =>
      intro init
      rw [List.foldl_cons, List.foldl_cons]
      have hset : (⟨init, w, h⟩ : Area GroundKind).set (Location.fromIndex j w)
          GroundKind.Mine = ⟨init.set j GroundKind.Mine, w, h⟩ := by
        unfold Area.set
        rw [show ((⟨init, w, h⟩ : Area GroundKind).width) = w from rfl,
          Location.toIndex_fromIndex hw]
        rfl
      rw [hset, ih]

lemma foldl_set_length : ∀ (js : List ℕ) (init : List GroundKind),
    (js.foldl (fun l j => l.set j GroundKind.Mine) init).length = init.length := by
  intro js
  induction js with
  | nil => intro init; rfl
  | cons j tl ih =>
      intro init
      rw [List.foldl_cons, ih, List.length_set]

lemma foldl_set_get_not_mem : ∀ (js : List ℕ) (init : List GroundKind) (q : ℕ), q ∉ js →
    (js.foldl (fun l j => l.set j GroundKind.Mine) init).get? q = init.get? q := by
  intro js
  induction js with
  | nil => intro init q _; rfl
  | cons j tl ih =>
      intro init q hq
      rw [List.foldl_cons, ih _ _ (fun h => hq (List.mem_cons_of_mem _ h))]
      exact List.get?_set_ne _ _ (fun h => hq (h ▸ List.mem_cons_self _ _))

lemma countP_set_mine : ∀ (init : List GroundKind) (q : ℕ),
    init.get? q = some GroundKind.Dirt →
    (init.set q GroundKind.Mine).countP GroundKind.isMine =
      init.countP GroundKind.isMine + 1 := by
  intro init
  induction init with
  | nil => intro q hq; simp at hq
  | cons a tl ih =>
      intro q hq
      cases q with
      | zero =>
          simp only [List.get?] at hq
          obtain rfl := Option.some.inj hq
          simp [List.set, List.countP_cons, GroundKind.isMine]
      | succ n =>
          simp only [List.get?] at hq
          simp only [List.set, List.countP_cons, ih n hq]
          omega

lemma foldl_set_countP : ∀ (js : List ℕ) (init : List GroundKind), js.Nodup →
    (∀ q ∈ js, init.get? q = some GroundKind.Dirt) →
    (js.foldl (fun l j => l.set j GroundKind.Mine) init).countP GroundKind.isMine =
      init.countP GroundKind.isMine + js.length := by
  intro js
  induction js with
  | nil => intro init _ _; rfl
  | cons j tl ih =>
      intro init hnd hdirt
      rw [List.foldl_cons]
      have hstep := ih (init.set j GroundKind.Mine) (List.Nodup.of_cons hnd) ?_
      · rw [hstep, countP_set_mine init j (hdirt j (List.mem_cons_self _ _))]
        simp only [List.length_cons]
        omega
      · intro q hq
        rw [List.get?_set_ne _ _ ?_]
        · exact hdirt q (List.mem_cons_of_mem _ hq)
        · intro h
          rw [← h] at hq
          exact (List.nodup_cons.mp hnd).1 hq

lemma get_replicate_dirt : ∀ (n q : ℕ), q < n →
    (List.replicate n GroundKind.Dirt).get? q = some GroundKind.Dirt := by
  intro n
  induction n with
  | zero => intro q h; omega
  | succ m ih =>
      intro q h
      cases q with
      | zero => rfl
      | succ k => exact ih k (by omega)

lemma foldl_skip_map (w : ℕ) (S : Finset ℕ) :
    ∀ (idxs : List ℕ) (init : Area GroundKind),
    idxs.foldl (fun a index => a.set (Location.fromIndex (ImprovedGenerator.skip S index) w)
      GroundKind.Mine) init =
    (idxs.map (ImprovedGenerator.skip S)).foldl
      (fun a j => a.set (Location.fromIndex j w) GroundKind.Mine) init := by
  intro idxs
  induction idxs with
  | nil => intro init; rfl
  | cons i tl ih =>
      intro init
      rw [List.map_cons, List.foldl_cons, List.foldl_cons, ih]

lemma length_filter_mem_range {s : Finset ℕ} {n : ℕ} (h : s ⊆ Finset.range n) :
    ((List.range n).filter (fun i => i ∈ s)).length = s.card := by
  have hnd : ((List.range n).filter (fun i => i ∈ s)).Nodup :=
    (List.nodup_range n).filter _
  rw [← List.toFinset_card_of_nodup hnd]
  congr 1
  ext i
  simp only [List.mem_toFinset, List.mem_filter, List.mem_range, decide_eq_true_eq]
  constructor
  · rintro ⟨-, hi⟩
    exact hi
  · intro hi
    exact ⟨Finset.mem_range.mp (h hi), hi⟩

/-- C3: on every board with an in-grid safe location and
`mine_count + 9 ≤ width * height`, any ground produced by
`ImprovedGenerator::generate` has the requested dimensions, contains
exactly `mine_count` mines, and keeps the safe location and all of its
in-grid Moore neighbours mine-free. -/
theorem C3_generator_postcondition (p : Parameters) (notAMine : Location)
    (g : Area GroundKind) (x y : ℕ)
    (hloc : notAMine = Location.mkN x y) (hx : x < p.width) (hy : y < p.height)
    (hcap : p.mineCount + 9 ≤ p.width * p.height)
    (hgen : ImprovedGenerator.Generates p notAMine g) :
    g.width = p.width ∧ g.height = p.height ∧
      g.area.length = p.width * p.height ∧
      g.area.countP GroundKind.isMine = p.mineCount ∧
      ∀ l ∈ notAMine :: notAMine.neighbours, ∀ k, g.get l = some k →
        k = GroundKind.Dirt := by
  obtain ⟨h9, sample, hsub, hcard, rfl⟩ := hgen
  have hw : 0 < p.width := by omega
  unfold ImprovedGenerator.buildGround
  simp only
  rw [show (Area.new GroundKind p.width p.height) =
    (⟨List.replicate (p.width * p.height) GroundKind.Dirt, p.width, p.height⟩ :
      Area GroundKind) from rfl]
  rw [foldl_skip_map]
  rw [Area.foldl_set_spec p.width p.height hw]
  set S := ImprovedGenerator.safeIndices notAMine p.width with hS
  set idxs := (List.range (p.width * p.height - 9)).filter (fun i => i ∈ sample) with hidxs
  set js := idxs.map (ImprovedGenerator.skip S) with hjs
  have hcardS : S.card ≤ 9 := ImprovedGenerator.safeIndices_card_le notAMine p.width
  have hidx_lt : ∀ i ∈ idxs, i < p.width * p.height - 9 := by
    intro i hi
    exact List.mem_range.mp (List.mem_filter.mp hi).1
  have hjs_lt : ∀ j ∈ js, j < p.width * p.height := by
    intro j hj
    obtain ⟨i, hi, rfl⟩ := List.mem_map.mp hj
    have h1 := ImprovedGenerator.skip_le_add S i
    have h2 := hidx_lt i hi
    omega
  have hjs_dirt : ∀ j ∈ js,
      (List.replicate (p.width * p.height) GroundKind.Dirt).get? j =
        some GroundKind.Dirt := fun j hj => get_replicate_dirt _ _ (hjs_lt j hj)
  have hjs_nd : js.Nodup := by
    apply List.Nodup.map_on ?_ ((List.nodup_range _).filter _)
    intro a _ b _ hab
    rcases Nat.lt_trichotomy a b with hl | he | hl
    · exact absurd hab (Nat.ne_of_lt (ImprovedGenerator.skip_lt_skip S hl))
    · exact he
    · exact absurd hab.symm (Nat.ne_of_lt (ImprovedGenerator.skip_lt_skip S hl))
  refine ⟨rfl, rfl, ?_, ?_, ?_⟩
  · rw [show (⟨js.foldl (fun l j => l.set j GroundKind.Mine)
        (List.replicate (p.width * p.height) GroundKind.Dirt), p.width, p.height⟩ :
        Area GroundKind).area = js.foldl (fun l j => l.set j GroundKind.Mine)
        (List.replicate (p.width * p.height) GroundKind.Dirt) from rfl]
    rw [foldl_set_length, List.length_replicate]
  · rw [show (⟨js.foldl (fun l j => l.set j GroundKind.Mine)
        (List.replicate (p.width * p.height) GroundKind.Dirt), p.width, p.height⟩ :
        Area GroundKind).area = js.foldl (fun l j => l.set j GroundKind.Mine)
        (List.replicate (p.width * p.height) GroundKind.Dirt) from rfl]
    rw [foldl_set_countP js _ hjs_nd hjs_dirt]
    have hz : (List.replicate (p.width * p.height) GroundKind.Dirt).countP
        GroundKind.isMine = 0 := by
      apply List.countP_eq_zero.mpr
      intro g hg
      rw [List.eq_of_mem_replicate hg]
      decide
    rw [hz, List.length_map, hidxs, length_filter_mem_range hsub]
    omega
  · intro l hl k hk
    unfold Area.get at hk
    cases hti : l.toIndex p.width with
    | none =>
        rw [show (⟨js.foldl (fun l j => l.set j GroundKind.Mine)
          (List.replicate (p.width * p.height) GroundKind.Dirt), p.width, p.height⟩ :
          Area GroundKind).width = p.width from rfl, hti] at hk
        simp at hk
    | some q =>
        rw [show (⟨js.foldl (fun l j => l.set j GroundKind.Mine)
          (List.replicate (p.width * p.height) GroundKind.Dirt), p.width, p.height⟩ :
          Area GroundKind).width = p.width from rfl, hti] at hk
        have hqS : q ∈ S := by
          rw [hS]
          unfold ImprovedGenerator.safeIndices
          exact List.mem_toFinset.mpr (List.mem_filterMap.mpr ⟨l, hl, hti⟩)
        have hqjs : q ∉ js := by
          intro hq
          obtain ⟨i, _, hqi⟩ := List.mem_map.mp hq
          exact ImprovedGenerator.skip_not_mem S i (hqi ▸ hqS)
        have hk2 : (js.foldl (fun l j => l.set j GroundKind.Mine)
            (List.replicate (p.width * p.height) GroundKind.Dirt)).get? q = some k := hk
        rw [foldl_set_get_not_mem js _ q hqjs] at hk2
        have hk := hk2
        have hlt : q < p.width * p.height := by
          by_contra hge
          rw [List.get?_eq_none.mpr (by rw [List.length_replicate]; omega)] at hk
          exact Option.noConfusion hk
        rw [get_replicate_dirt _ _ hlt] at hk
        exact (Option.some.inj hk).symm

/-- Witness for C3 at a concrete input: a 4×3 board with 2 mines and safe
location (1,1), sample `{0, 1}`. -/
theorem C3_generator_postcondition_witness :
    ImprovedGenerator.Generates ⟨4, 3, 2⟩ (Location.mkN 1 1)
      (ImprovedGenerator.buildGround ⟨4, 3, 2⟩ (Location.mkN 1 1) {0, 1}) ∧
    Location.mkN 1 1 = Location.mkN 1 1 ∧ 1 < 4 ∧ 1 < 3 ∧ 2 + 9 ≤ 4 * 3 ∧
    ((ImprovedGenerator.buildGround ⟨4, 3, 2⟩ (Location.mkN 1 1) {0, 1}).width = 4 ∧
      (ImprovedGenerator.buildGround ⟨4, 3, 2⟩ (Location.mkN 1 1) {0, 1}).height = 3 ∧
      (ImprovedGenerator.buildGround ⟨4, 3, 2⟩ (Location.mkN 1 1) {0, 1}).area.length =
        4 * 3 ∧
      (ImprovedGenerator.buildGround ⟨4, 3, 2⟩ (Location.mkN 1 1) {0, 1}).area.countP
        GroundKind.isMine = 2 ∧
      ∀ l ∈ Location.mkN 1 1 :: (Location.mkN 1 1).neighbours, ∀ k,
        (ImprovedGenerator.buildGround ⟨4, 3, 2⟩ (Location.mkN 1 1) {0, 1}).get l =
          some k → k = GroundKind.Dirt) := by
  have hgen : ImprovedGenerator.Generates ⟨4, 3, 2⟩ (Location.mkN 1 1)
      (ImprovedGenerator.buildGround ⟨4, 3, 2⟩ (Location.mkN 1 1) {0, 1}) :=
    ⟨by decide, {0, 1}, by decide, by decide, rfl⟩
  exact ⟨hgen, rfl, by decide, by decide, by decide,
    C3_generator_postcondition ⟨4, 3, 2⟩ (Location.mkN 1 1) _ 1 1 rfl (by decide)
      (by decide) (by decide) hgen⟩

/-! ### C1 — solver soundness -/

lemma c1s0_genCondMark : GenCond c1s0 ⟨Location.mkN 12 0, Action.Mark⟩ c1gen := by
  intro mc hmc
  have hmc1 : mc = 1 := by
    simp [c1s0, Minefield.new, GameState.new] at hmc
    omega
  subst hmc1
  exact ⟨by decide, {0}, by decide, by decide, rfl⟩

lemma c1s7_reachable : Reachable c1s7 := by
  have h0 : Reachable c1s0 := Reachable.base ⟨13, 1, 1⟩
  have h1 : Reachable c1s1 := h0.stepAuto c1s0_genCondMark (by decide)
  have h2 : Reachable c1s2 := h1.stepAuto (GenCond.ofNotInitial (by decide)) (by decide)
  have h3 : Reachable c1s3 := h2.stepAuto (GenCond.ofNotInitial (by decide)) (by decide)
  have h4 : Reachable c1s4 := h3.stepAuto (GenCond.ofNotInitial (by decide)) (by decide)
  have h5 : Reachable c1s5 := h4.stepAuto (GenCond.ofNotInitial (by decide)) (by decide)
  have h6 : Reachable c1s6 := h5.stepAuto (GenCond.ofNotInitial (by decide)) (by decide)
  exact h6.stepAuto (GenCond.ofNotInitial (by decide)) (by decide)

/-- C1 counterexample: `c1s7` is reachable by legal commands (13×1 board,
one mine at (0,0); mark (12,0), unmark it, mark (0,0) and (2,0), reveal
(12,0) and (1,0), then unmark (2,0)), yet the solver reports the actual
mine (0,0) as guaranteed safe and the dirt cell (2,0) as a guaranteed
mine — the marked-neighbour seeding is unsound. -/
theorem C1_solver_soundness_counterexample :
    Reachable c1s7 ∧
    c1s7.ground.get (Location.mkN 0 0) = some GroundKind.Mine ∧
    Location.mkN 0 0 ∈ safeOf (Solver.solve c1s7) ∧
    c1s7.ground.get (Location.mkN 2 0) = some GroundKind.Dirt ∧
    Location.mkN 2 0 ∈ minedOf (Solver.solve c1s7) :=
  ⟨c1s7_reachable, by decide, by decide, by decide, by decide⟩

lemma Location.neighbours_nodup (x y : ℕ) : (Location.mkN x y).neighbours.Nodup := by
  rcases x with _ | x <;> rcases y with _ | y <;>
    simp [Location.neighbours, Location.mv, Location.mkN, Bounded.sub, Bounded.add,
      Location.mk.injEq] <;>
    omega

lemma zip_get_of_mem {α β : Type} {as : List α} {bs : List β} {x : α × β}
    (h : x ∈ as.zip bs) : ∃ i, as.get? i = some x.1 ∧ bs.get? i = some x.2 := by
  induction as generalizing bs with
  | nil => simp at h
  | cons a as ih =>
      cases bs with
      | nil => simp at h
      | cons b bs =>
          rw [List.zip_cons_cons, List.mem_cons] at h
          rcases h with rfl | h
          · exact ⟨0, rfl, rfl⟩
          · obtain ⟨i, h1, h2⟩ := ih h
            exact ⟨i + 1, h1, h2⟩

lemma mem_zip_of_get {α β : Type} {as : List α} {bs : List β} {i : ℕ} {a : α} {b : β}
    (ha : as.get? i = some a) (hb : bs.get? i = some b) : (a, b) ∈ as.zip bs := by
  induction as generalizing bs i with
  | nil => simp at ha
  | cons x as ih =>
      cases bs with
      | nil => simp at hb
      | cons y bs =>
          rw [List.zip_cons_cons]
          cases i with
          | zero =>
              simp only [List.get?] at ha hb
              obtain rfl := Option.some.inj ha
              obtain rfl := Option.some.inj hb
              exact List.mem_cons_self _ _
          | succ n =>
              simp only [List.get?] at ha hb
              exact List.mem_cons_of_mem _ (ih ha hb)

lemma Location.fromIndex_eq {x y w : ℕ} (hx : x < w) :
    Location.fromIndex (y * w + x) w = ⟨Bounded.Valid x, Bounded.Valid y⟩ := by
  have hw : 0 < w := by omega
  unfold Location.fromIndex
  have h1 : (y * w + x) % w = x := by
    rw [Nat.mul_comm, Nat.mul_add_mod, Nat.mod_eq_of_lt hx]
  have h2 : (y * w + x) / w = y := by
    rw [Nat.mul_comm, Nat.mul_add_div hw, Nat.div_eq_of_lt hx]
    omega
  rw [h1, h2]

lemma Location.generateAll_nodup (w h : ℕ) : (Location.generateAll w h).Nodup := by
  unfold Location.generateAll
  apply List.Nodup.map_on ?_ (List.nodup_range _)
  intro a ha b hb hfe
  rcases Nat.eq_zero_or_pos w with hw0 | hw
  · rw [hw0] at ha
    simp at ha
  · unfold Location.fromIndex at hfe
    simp only [Location.mk.injEq, Bounded.Valid.injEq] at hfe
    obtain ⟨hm, hd⟩ := hfe
    have h1 := Nat.div_add_mod a w
    have h2 := Nat.div_add_mod b w
    rw [hm, hd] at h1
    omega

lemma Location.generateAll_get {w h i : ℕ} (hi : i < w * h) :
    (Location.generateAll w h).get? i = some (Location.fromIndex i w) := by
  unfold Location.generateAll
  rw [List.get?_map, List.get?_range hi]
  rfl

lemma Area.get_fromIndex {T : Type} {a : Area T} {i : ℕ} (hw : 0 < a.width) :
    a.get (Location.fromIndex i a.width) = a.area.get? i := by
  unfold Area.get
  rw [Location.toIndex_fromIndex hw]

lemma Area.get_of_zip_mem {T : Type} {a : Area T} {p : Location × T}
    (hlen : a.area.length = a.width * a.height)
    (h : p ∈ (Location.generateAll a.width a.height).zip a.area) :
    a.get p.1 = some p.2 ∧ ∃ x y, p.1 = Location.mkN x y := by
  obtain ⟨i, h1, h2⟩ := zip_get_of_mem h
  have hiw : i < a.width * a.height := by
    have hl := (List.get?_eq_some.mp h1).1
    unfold Location.generateAll at hl
    simpa [List.length_map, List.length_range] using hl
  have hw : 0 < a.width := by
    rcases Nat.eq_zero_or_pos a.width with h0 | h0
    · rw [h0] at hiw
      simp at hiw
    · exact h0
  rw [Location.generateAll_get hiw] at h1
  have hp1 : Location.fromIndex i a.width = p.1 := Option.some.inj h1
  refine ⟨?_, i % a.width, i / a.width, by rw [← hp1]; rfl⟩
  rw [← hp1, Area.get_fromIndex hw]
  exact h2

lemma countP_filterMap_get : ∀ (nbrs : List Location) (a : Area GroundKind),
    (nbrs.filterMap (fun l => a.get l)).countP GroundKind.isMine =
      nbrs.countP (fun l => decide (a.get l = some GroundKind.Mine)) := by
  intro nbrs
  induction nbrs with
  | nil => intro a; rfl
  | cons z tl ih =>
      intro a
      rw [List.filterMap_cons, List.countP_cons]
      cases hz : a.get z with
      | none =>
          rw [ih]
          simp [hz]
      | some g =>
          rw [List.countP_cons, ih]
          cases g <;> simp [hz, GroundKind.isMine]

lemma count_mine_indices : ∀ (l : List GroundKind),
    (List.range l.length).countP (fun i => decide (l.get? i = some GroundKind.Mine)) =
      l.countP GroundKind.isMine := by
  intro l
  induction l with
  | nil => rfl
  | cons a tl ih =>
      rw [List.length_cons, List.range_succ_eq_map, List.countP_cons, List.countP_map]
      have he : ((fun i => decide ((a :: tl).get? i = some GroundKind.Mine)) ∘
          (fun i => i + 1)) = (fun i => decide (tl.get? i = some GroundKind.Mine)) := rfl
      rw [he, ih, List.countP_cons]
      cases a <;> simp [GroundKind.isMine]

lemma minesSet_mem_iff {mf : Minefield}
    (hdims : mf.ground.area.length = mf.ground.width * mf.ground.height) (z : Location) :
    z ∈ minesSet mf ↔ mf.ground.get z = some GroundKind.Mine := by
  unfold minesSet
  rw [List.mem_toFinset, List.mem_filter]
  constructor
  · rintro ⟨-, hm⟩
    exact of_decide_eq_true hm
  · intro hm
    refine ⟨?_, decide_eq_true hm⟩
    obtain ⟨i, hti, hlt, -⟩ := Area.get_some_lt hm
    obtain ⟨x, y, rfl, hxw, rfl⟩ := Location.toIndex_eq_some hti
    rw [hdims] at hlt
    unfold Location.generateAll
    exact List.mem_map.mpr ⟨y * mf.ground.width + x, List.mem_range.mpr hlt,
      Location.fromIndex_eq hxw⟩

lemma minesSet_card {mf : Minefield}
    (hdims : mf.ground.area.length = mf.ground.width * mf.ground.height) :
    (minesSet mf).card = mf.mineCount := by
  unfold minesSet Minefield.mineCount
  rw [List.toFinset_card_of_nodup
    ((Location.generateAll_nodup mf.ground.width mf.ground.height).filter _)]
  rw [← List.countP_eq_length_filter]
  unfold Location.generateAll
  rw [List.countP_map]
  rcases Nat.eq_zero_or_pos mf.ground.width with hw0 | hw
  · have hz : mf.ground.width * mf.ground.height = 0 := by rw [hw0]; ring
    have ha : mf.ground.area = [] := List.length_eq_zero.mp (by omega)
    rw [hz, ha]
    rfl
  · have he : ((fun l => decide (mf.ground.get l = some GroundKind.Mine)) ∘
        (fun i => Location.fromIndex i mf.ground.width)) =
        (fun i => decide (mf.ground.area.get? i = some GroundKind.Mine)) := by
      funext i
      simp only [Function.comp]
      rw [Area.get_fromIndex hw]
    rw [he, ← hdims, count_mine_indices]

lemma mem_universalProx {mf : Minefield} {z : Location} {s : State}
    (hflen : mf.fog.area.length = mf.fog.width * mf.fog.height)
    (hget : mf.fog.get z = some s) (hs : (s.isHidden || s.isMarked) = true) :
    z ∈ Solver.universalProx mf := by
  unfold Solver.universalProx
  obtain ⟨i, hti, hlt, hgi⟩ := Area.get_some_lt hget
  obtain ⟨x, y, rfl, hxw, hieq⟩ := Location.toIndex_eq_some hti
  refine List.mem_toFinset.mpr (List.mem_map.mpr
    ⟨(⟨Bounded.Valid x, Bounded.Valid y⟩, s), ?_, rfl⟩)
  refine List.mem_filter.mpr ⟨?_, hs⟩
  refine @mem_zip_of_get _ _ _ _ i _ _ ?_ ?_
  · rw [Location.generateAll_get (by omega : i < mf.fog.width * mf.fog.height), hieq,
      Location.fromIndex_eq hxw]
  · exact hgi

lemma Solver.asMinMax_spec {l r a b : Fact} (h : Solver.asMinMax l r = some (a, b)) :
    ((a = l ∧ b = r) ∨ (a = r ∧ b = l)) ∧ a.kind = Constraint.Min ∧
      b.kind = Constraint.Max := by
  cases hlk : l.kind <;> cases hrk : r.kind <;>
    simp only [Solver.asMinMax, hlk, hrk, Option.some.injEq, Prod.mk.injEq,
      reduceCtorEq] at h
  · exact ⟨Or.inl ⟨h.1.symm, h.2.symm⟩, by rw [← h.1, hlk], by rw [← h.2, hrk]⟩
  · exact ⟨Or.inr ⟨h.1.symm, h.2.symm⟩, by rw [← h.1, hrk], by rw [← h.2, hlk]⟩

lemma hidden_prox_card {mf : Minefield}
    (hm : ∀ l, mf.ground.get l = some GroundKind.Mine → mf.fog.get l = some State.Hidden)
    (hglen : mf.ground.area.length = mf.ground.width * mf.ground.height)
    (x y : ℕ) :
    (((Location.mkN x y).neighbours.filter
        (fun l2 => ((mf.fog.get l2).map State.isHidden).getD false)).toFinset ∩
      minesSet mf).card =
      Minefield.minesInProximity mf.ground (Location.mkN x y) := by
  have hnd := Location.neighbours_nodup x y
  have hset : ((Location.mkN x y).neighbours.filter
      (fun l2 => ((mf.fog.get l2).map State.isHidden).getD false)).toFinset ∩ minesSet mf =
      ((Location.mkN x y).neighbours.filter
        (fun l2 => decide (mf.ground.get l2 = some GroundKind.Mine))).toFinset := by
    ext z
    simp only [Finset.mem_inter, List.mem_toFinset, List.mem_filter]
    constructor
    · rintro ⟨⟨hz, -⟩, hzM⟩
      exact ⟨hz, decide_eq_true ((minesSet_mem_iff hglen z).mp hzM)⟩
    · rintro ⟨hz, hzm⟩
      have hmine := of_decide_eq_true hzm
      refine ⟨⟨hz, ?_⟩, (minesSet_mem_iff hglen z).mpr hmine⟩
      rw [hm z hmine]
      rfl
  rw [hset, List.toFinset_card_of_nodup (hnd.filter _), ← List.countP_eq_length_filter]
  unfold Minefield.minesInProximity
  rw [countP_filterMap_get]

lemma seedFacts_true {mf : Minefield}
    (hrev : RevealedInv mf)
    (hflen : mf.fog.area.length = mf.fog.width * mf.fog.height)
    (hglen : mf.ground.area.length = mf.ground.width * mf.ground.height)
    (hm : ∀ l, mf.ground.get l = some GroundKind.Mine → mf.fog.get l = some State.Hidden) :
    ∀ f ∈ Solver.seedFacts mf, FactTrue (minesSet mf) f := by
  intro f hf
  unfold Solver.seedFacts at hf
  obtain ⟨p, hp, he⟩ := List.mem_filterMap.mp hf
  obtain ⟨n, hn, he2⟩ := Option.map_eq_some'.mp he
  obtain ⟨hget, xx, yy, hpl⟩ := Area.get_of_zip_mem hflen hp
  have hps : p.2 = State.Revealed n := by
    cases hs : p.2 <;> rw [hs] at hn <;> simp [State.asRevealed] at hn
    rw [hn]
  rw [hps] at hget
  obtain ⟨-, hcount⟩ := hrev p.1 n hget
  rw [← he2]
  show ((p.1.neighbours.filter
      (fun l2 => ((mf.fog.get l2).map State.isHidden).getD false)).toFinset ∩
    minesSet mf).card = n
  rw [hpl] at hcount ⊢
  rw [hcount]
  exact hidden_prox_card hm hglen xx yy

lemma initState_allTrue {mf : Minefield}
    (h : ∀ f ∈ Solver.seedFacts mf, FactTrue (minesSet mf) f) :
    Solver.AllTrue (minesSet mf) (Solver.initState mf) := by
  intro f hf
  rcases Solver.mem_addAll hf with h0 | h1
  · simp at h0
  · exact h f h1

lemma universalFact_true {mf : Minefield}
    (hflen : mf.fog.area.length = mf.fog.width * mf.fog.height)
    (hglen : mf.ground.area.length = mf.ground.width * mf.ground.height)
    (hm : ∀ l, mf.ground.get l = some GroundKind.Mine → mf.fog.get l = some State.Hidden)
    (it : ℕ) :
    FactTrue (minesSet mf)
      ⟨Constraint.Exact, mf.mineCount, Solver.universalProx mf, it⟩ := by
  show (Solver.universalProx mf ∩ minesSet mf).card = mf.mineCount
  have hsub : minesSet mf ⊆ Solver.universalProx mf := by
    intro z hz
    have hmine := (minesSet_mem_iff hglen z).mp hz
    exact mem_universalProx hflen (hm z hmine) rfl
  rw [Finset.inter_eq_right.mpr hsub, minesSet_card hglen]

lemma step_allTrue {M : Finset Location} {s : Solver} (h : Solver.AllTrue M s) :
    Solver.AllTrue M (Solver.step s) := by
  intro f hf
  rw [Solver.step_facts_eq] at hf
  rcases Solver.mem_addAll hf with hold | hnew
  · exact h f hold
  · simp only [List.mem_append] at hnew
    rcases hnew with ((((h1 | h1) | h1) | h1) | h1) | h1
    · obtain ⟨g, hg, rfl⟩ := List.mem_map.mp h1
      obtain ⟨hgp, hcond⟩ := List.mem_filter.mp hg
      have hgm := Solver.prevIteration_subset hgp
      simp only [Fact.isMin, Bool.and_eq_true, decide_eq_true_eq] at hcond
      obtain ⟨hkind, hcard⟩ := hcond
      have ht := h g hgm
      simp only [FactTrue, hkind] at ht
      show (g.proximity ∩ M).card = g.count
      have hle : (g.proximity ∩ M).card ≤ g.proximity.card :=
        Finset.card_le_card Finset.inter_subset_left
      unfold Fact.cardinality at hcard
      omega
    · obtain ⟨g, hg, rfl⟩ := List.mem_map.mp h1
      obtain ⟨hgp, hcond⟩ := List.mem_filter.mp hg
      have hgm := Solver.prevIteration_subset hgp
      simp only [Fact.isMax, Bool.and_eq_true, decide_eq_true_eq] at hcond
      obtain ⟨hkind, hzero⟩ := hcond
      have ht := h g hgm
      simp only [FactTrue, hkind] at ht
      show (g.proximity ∩ M).card = g.count
      omega
    · obtain ⟨g, hg, rfl⟩ := List.mem_map.mp h1
      obtain ⟨hgp, hcond⟩ := List.mem_filter.mp hg
      have hgm := Solver.prevIteration_subset hgp
      simp only [Fact.isExact, decide_eq_true_eq] at hcond
      have ht := h g hgm
      simp only [FactTrue, hcond] at ht
      show g.count ≤ (g.proximity ∩ M).card
      omega
    · obtain ⟨g, hg, rfl⟩ := List.mem_map.mp h1
      obtain ⟨hgp, hcond⟩ := List.mem_filter.mp hg
      have hgm := Solver.prevIteration_subset hgp
      simp only [Fact.isExact, decide_eq_true_eq] at hcond
      have ht := h g hgm
      simp only [FactTrue, hcond] at ht
      show (g.proximity ∩ M).card ≤ g.count
      omega
    · obtain ⟨p, hp, he⟩ := List.mem_filterMap.mp h1
      obtain ⟨q, hq, he2⟩ := Option.bind_eq_some.mp he
      obtain ⟨q1, q2⟩ := q
      obtain ⟨hmem1, hmem2⟩ := Solver.pairs_mem hp
      obtain ⟨hor, hk1, hk2⟩ := Solver.asMinMax_spec hq
      have hq1m : q1 ∈ s.facts := by
        rcases hor with ⟨rfl, -⟩ | ⟨rfl, -⟩
        exacts [hmem1, hmem2]
      have hq2m : q2 ∈ s.facts := by
        rcases hor with ⟨-, rfl⟩ | ⟨-, rfl⟩
        exacts [hmem2, hmem1]
      have ht1 := h q1 hq1m
      have ht2 := h q2 hq2m
      simp only [FactTrue, hk1] at ht1
      simp only [FactTrue, hk2] at ht2
      split at he2
      · rename_i hcond
        obtain rfl := Option.some.inj he2
        obtain ⟨hcc, -, hsub⟩ := hcond
        show ((q2.proximity \ q1.proximity) ∩ M).card ≤ q2.count - q1.count
        have hsub2 : q1.proximity ∩ M ⊆ q2.proximity ∩ M :=
          Finset.inter_subset_inter hsub (Finset.Subset.refl M)
        have hsd : (q2.proximity \ q1.proximity) ∩ M =
            (q2.proximity ∩ M) \ (q1.proximity ∩ M) := by
          ext z
          simp only [Finset.mem_inter, Finset.mem_sdiff]
          constructor
          · rintro ⟨⟨h2, h1n⟩, hM⟩
            exact ⟨⟨h2, hM⟩, fun hc => h1n hc.1⟩
          · rintro ⟨⟨h2, hM⟩, hn⟩
            exact ⟨⟨h2, fun hin => hn ⟨hin, hM⟩⟩, hM⟩
        rw [hsd, Finset.card_sdiff hsub2]
        have hc12 := Finset.card_le_card hsub2
        omega
      · exact absurd he2 (by simp)
    · obtain ⟨p, hp, he⟩ := List.mem_filterMap.mp h1
      obtain ⟨q, hq, he2⟩ := Option.bind_eq_some.mp he
      obtain ⟨q1, q2⟩ := q
      obtain ⟨hmem1, hmem2⟩ := Solver.pairs_mem hp
      obtain ⟨hor, hk1, hk2⟩ := Solver.asMinMax_spec hq
      have hq1m : q1 ∈ s.facts := by
        rcases hor with ⟨rfl, -⟩ | ⟨rfl, -⟩
        exacts [hmem1, hmem2]
      have hq2m : q2 ∈ s.facts := by
        rcases hor with ⟨-, rfl⟩ | ⟨-, rfl⟩
        exacts [hmem2, hmem1]
      have ht1 := h q1 hq1m
      have ht2 := h q2 hq2m
      simp only [FactTrue, hk1] at ht1
      simp only [FactTrue, hk2] at ht2
      simp only at he2
      split at he2
      · exact absurd he2 (by simp)
      · split at he2
        · exact absurd he2 (by simp)
        · obtain rfl := Option.some.inj he2
          show q1.count - Nat.min q2.count (q1.proximity ∩ q2.proximity).card ≤
            ((q1.proximity \ q2.proximity) ∩ M).card
          have hpart : (q1.proximity ∩ M) =
              ((q1.proximity \ q2.proximity) ∩ M) ∪
                ((q1.proximity ∩ q2.proximity) ∩ M) := by
            ext z
            simp only [Finset.mem_inter, Finset.mem_union, Finset.mem_sdiff]
            constructor
            · rintro ⟨h1, hM⟩
              by_cases h2 : z ∈ q2.proximity
              · exact Or.inr ⟨⟨h1, h2⟩, hM⟩
              · exact Or.inl ⟨⟨h1, h2⟩, hM⟩
            · rintro (⟨⟨h1, -⟩, hM⟩ | ⟨⟨h1, -⟩, hM⟩) <;> exact ⟨h1, hM⟩
          have hdisj : Disjoint ((q1.proximity \ q2.proximity) ∩ M)
              ((q1.proximity ∩ q2.proximity) ∩ M) := by
            rw [Finset.disjoint_left]
            intro z hza hzb
            have ha := Finset.mem_inter.mp hza
            have hb := Finset.mem_inter.mp hzb
            exact (Finset.mem_sdiff.mp ha.1).2 (Finset.mem_inter.mp hb.1).2
          have hcu : (q1.proximity ∩ M).card =
              ((q1.proximity \ q2.proximity) ∩ M).card +
                ((q1.proximity ∩ q2.proximity) ∩ M).card := by
            rw [hpart, Finset.card_union_of_disjoint hdisj]
          have hb1 : ((q1.proximity ∩ q2.proximity) ∩ M).card ≤
              (q1.proximity ∩ q2.proximity).card :=
            Finset.card_le_card Finset.inter_subset_left
          have hb2 : ((q1.proximity ∩ q2.proximity) ∩ M).card ≤ q2.count := by
            refine le_trans (Finset.card_le_card ?_) ht2
            intro z hz
            have h1z := Finset.mem_inter.mp hz
            exact Finset.mem_inter.mpr ⟨(Finset.mem_inter.mp h1z.1).2, h1z.2⟩
          have hmin : ((q1.proximity ∩ q2.proximity) ∩ M).card ≤
              Nat.min q2.count (q1.proximity ∩ q2.proximity).card := le_min hb2 hb1
          omega

lemma runFuel_allTrue {M : Finset Location} : ∀ (fuel : ℕ) (s : Solver),
    Solver.AllTrue M s → Solver.AllTrue M (Solver.runFuel fuel s) := by
  intro fuel
  induction fuel with
  | zero => intro s h; exact h
  | succ fuel ih =>
      intro s h
      simp only [Solver.runFuel]
      by_cases hlt : s.facts.length < (Solver.step s).facts.length
      · rw [if_pos hlt]
        exact ih _ (step_allTrue h)
      · rw [if_neg hlt]
        exact step_allTrue h

lemma seedUniversalFact_allTrue {mf : Minefield} {s : Solver}
    (h : Solver.AllTrue (minesSet mf) s)
    (hflen : mf.fog.area.length = mf.fog.width * mf.fog.height)
    (hglen : mf.ground.area.length = mf.ground.width * mf.ground.height)
    (hm : ∀ l, mf.ground.get l = some GroundKind.Mine → mf.fog.get l = some State.Hidden) :
    Solver.AllTrue (minesSet mf) (Solver.seedUniversalFact s mf) := by
  intro f hf
  rcases Solver.mem_addAll hf with h1 | h1
  · exact h f h1
  · rw [List.mem_singleton] at h1
    rw [h1]
    exact universalFact_true hflen hglen hm s.iteration

lemma guaranteedMines_subset {M : Finset Location} {s : Solver}
    (h : Solver.AllTrue M s) : Solver.guaranteedMines s ⊆ M := by
  intro z hz
  unfold Solver.guaranteedMines at hz
  rw [Solver.mem_foldl_union] at hz
  rcases hz with h0 | ⟨f, hf, hzf⟩
  · simp at h0
  · obtain ⟨hfm, hcond⟩ := List.mem_filter.mp hf
    simp only [Fact.isExact, Bool.and_eq_true, decide_eq_true_eq] at hcond
    obtain ⟨hkind, hcc⟩ := hcond
    have ht := h f hfm
    simp only [FactTrue, hkind] at ht
    have hfull : f.proximity ⊆ M := by
      rw [← Finset.inter_eq_left]
      apply Finset.eq_of_subset_of_card_le Finset.inter_subset_left
      omega
    exact hfull hzf

lemma guaranteedSafe_disjoint {M : Finset Location} {s : Solver}
    (h : Solver.AllTrue M s) : ∀ z ∈ Solver.guaranteedSafeLocations s, z ∉ M := by
  intro z hz hzM
  unfold Solver.guaranteedSafeLocations at hz
  rw [Solver.mem_foldl_union] at hz
  rcases hz with h0 | ⟨f, hf, hzf⟩
  · simp at h0
  · obtain ⟨hfm, hcond⟩ := List.mem_filter.mp hf
    simp only [Fact.isExact, Bool.and_eq_true, decide_eq_true_eq] at hcond
    obtain ⟨hkind, hzero⟩ := hcond
    have ht := h f hfm
    simp only [FactTrue, hkind] at ht
    have hempty : f.proximity ∩ M = ∅ := by
      apply Finset.card_eq_zero.mp
      omega
    have : z ∈ f.proximity ∩ M := Finset.mem_inter.mpr ⟨hzf, hzM⟩
    rw [hempty] at this
    exact absurd this (Finset.not_mem_empty z)

lemma Area.empty_get {T : Type} (l : Location) : (Area.empty T).get l = none := by
  obtain ⟨lx, ly⟩ := l
  cases lx <;> simp [Area.get, Area.empty, Location.toIndex]

/-- C1 amended: on every reachable board in which every mine is still
Hidden (no mine has been marked or blown up), the solver is sound — it
returns normally, no guaranteed-safe location is a mine, and every
guaranteed mine is a real mine.  (The unrestricted claim is refuted by
`C1_solver_soundness_counterexample`: marking cells decouples the seeded
counts from the seeded proximities.) -/
theorem C1_solver_soundness_amended (mf : Minefield) (h : Reachable mf)
    (hm : ((mf.ground.area).zip mf.fog.area).all
      (fun p => !p.1.isMine || p.2.isHidden) = true) :
    (Solver.solve mf).isSome = true ∧
    safeOf (Solver.solve mf) ∩ minesSet mf = ∅ ∧
    minedOf (Solver.solve mf) ⊆ minesSet mf := by
  obtain ⟨-, hgdisj, hglen, hflen, hrev⟩ := Reachable.inv h
  have hmines : ∀ l, mf.ground.get l = some GroundKind.Mine →
      mf.fog.get l = some State.Hidden := by
    intro l hl
    rcases hgdisj with hge | ⟨hgw, hgh, hgl⟩
    · rw [hge, Area.empty_get] at hl
      exact absurd hl (by simp)
    · obtain ⟨i, hti, hlt, hgi⟩ := Area.get_some_lt hl
      have hflt : i < mf.fog.area.length := by omega
      obtain ⟨s, hs⟩ : ∃ s, mf.fog.area.get? i = some s := by
        cases hq : mf.fog.area.get? i with
        | none =>
            rw [List.get?_eq_none] at hq
            omega
        | some s => exact ⟨s, rfl⟩
      have hzip := zip_all_get hm hgi hs
      have hsh : s = State.Hidden := by
        cases s <;> simp [State.isHidden, GroundKind.isMine] at hzip ⊢
      have hti2 : l.toIndex mf.fog.width = some i := by
        rw [← hgw]
        exact hti
      simp only [Area.get, hti2]
      rw [hs, hsh]
  have hseeds := seedFacts_true hrev hflen hglen hmines
  have hall1 : Solver.AllTrue (minesSet mf) (Solver.run (Solver.initState mf)) :=
    runFuel_allTrue _ _ (initState_allTrue hseeds)
  have hcard : (Solver.guaranteedMines (Solver.run (Solver.initState mf))).card ≤
      mf.mineCount := by
    rw [← minesSet_card hglen]
    exact Finset.card_le_card (guaranteedMines_subset hall1)
  have main : ∀ s2 : Solver, Solver.AllTrue (minesSet mf) s2 →
      (some (Solver.guaranteedSafeLocations s2, Solver.guaranteedMines s2) :
        Option (Finset Location × Finset Location)).isSome = true ∧
      safeOf (some (Solver.guaranteedSafeLocations s2, Solver.guaranteedMines s2)) ∩
        minesSet mf = ∅ ∧
      minedOf (some (Solver.guaranteedSafeLocations s2, Solver.guaranteedMines s2)) ⊆
        minesSet mf := by
    intro s2 hall2
    refine ⟨rfl, ?_, ?_⟩
    · apply Finset.eq_empty_iff_forall_not_mem.mpr
      intro z hz
      simp only [safeOf, Option.map_some', Option.getD_some] at hz
      have h1 := Finset.mem_inter.mp hz
      exact guaranteedSafe_disjoint hall2 z h1.1 h1.2
    · intro z hz
      simp only [minedOf, Option.map_some', Option.getD_some] at hz
      exact guaranteedMines_subset hall2 hz
  simp only [Solver.solve]
  rw [if_pos hcard]
  by_cases hun : mf.unobservedCount ≤
      mf.mineCount - (Solver.guaranteedMines (Solver.run (Solver.initState mf))).card
  · rw [if_pos hun]
    exact main _ (runFuel_allTrue _ _ (seedUniversalFact_allTrue hall1 hflen hglen hmines))
  · rw [if_neg hun]
    exact main _ hall1

/-- Witness for C1 amended at a concrete input: the reachable 13×1 board
`c1w` (one hidden mine at (0,0), flood-revealed from (12,0)). -/
theorem C1_solver_soundness_amended_witness :
    Reachable c1w ∧
    ((c1w.ground.area).zip c1w.fog.area).all
      (fun p => !p.1.isMine || p.2.isHidden) = true ∧
    ((Solver.solve c1w).isSome = true ∧
      safeOf (Solver.solve c1w) ∩ minesSet c1w = ∅ ∧
      minedOf (Solver.solve c1w) ⊆ minesSet c1w) :=
  ⟨c1w_reachable, by decide,
    C1_solver_soundness_amended c1w c1w_reachable (by decide)⟩

end Sweepers
